import Mathlib

/-!
Verification of the Redis memoization layer of
`src/app/backend/src/core/cache/decorator.py`.

The development shallowly embeds the key-derivation pipeline
(`_gen_key`, `_sorted_by_keys`, `_sort_dicts`, `sorted_dicts_args`,
`sorted_dicts`, `hash_key`) and the per-call control flow of the
wrapper produced by `RedisCache.cache`.  Python values that can appear
as cached-function arguments are modelled by the inductive type
`PyVal`; the backing Redis store is modelled as an association list
from keys to raw byte strings, and every store interaction the wrapper
performs is recorded in an operation trace.
-/

/-- Python values appearing as arguments / cached values.

`dict` is an insertion-ordered association list, mirrorring the
insertion order of a CPython `dict`; `odict` is `collections.OrderedDict`,
which `_sort_dicts` deliberately leaves unsorted.  `float` carries an
exact rational; in these claims floats only occur as the stored
`timestamp`, which is never fed to the textual key serialization. -/
inductive PyVal where
  | none : PyVal
  | bool (b : Bool) : PyVal
  | int (n : Int) : PyVal
  | float (q : Rat) : PyVal
  | str (s : String) : PyVal
  | list (xs : List PyVal) : PyVal
  | tuple (xs : List PyVal) : PyVal
  | dict (entries : List (PyVal × PyVal)) : PyVal
  | odict (entries : List (PyVal × PyVal)) : PyVal

mutual

/-- Boolean equality on `PyVal` (Python `==` restricted to this value
universe, where it agrees with structural equality). -/
def PyVal.beq : PyVal → PyVal → Bool
  | .none, .none => true
  | .bool a, .bool b => a == b
  | .int a, .int b => a == b
  | .float a, .float b => a == b
  | .str a, .str b => a == b
  | .list xs, .list ys => pyListBeq xs ys
  | .tuple xs, .tuple ys => pyListBeq xs ys
  | .dict xs, .dict ys => pyPairsBeq xs ys
  | .odict xs, .odict ys => pyPairsBeq xs ys
  | _, _ => false

/-- Pointwise `PyVal.beq` on lists. -/
def pyListBeq : List PyVal → List PyVal → Bool
  | [], [] => true
  | x :: xs, y :: ys => PyVal.beq x y && pyListBeq xs ys
  | _, _ => false

/-- Pointwise `PyVal.beq` on entry lists. -/
def pyPairsBeq : List (PyVal × PyVal) → List (PyVal × PyVal) → Bool
  | [], [] => true
  | p :: xs, q :: ys => PyVal.beq p.1 q.1 && PyVal.beq p.2 q.2 && pyPairsBeq xs ys
  | _, _ => false

end

/-- Structural induction principle for `PyVal` exposing membership
hypotheses for the nested lists. -/
theorem PyVal.inductionOn (motive : PyVal → Prop)
    (hnone : motive .none)
    (hbool : ∀ b, motive (.bool b))
    (hint : ∀ n, motive (.int n))
    (hfloat : ∀ q, motive (.float q))
    (hstr : ∀ s, motive (.str s))
    (hlist : ∀ xs, (∀ x ∈ xs, motive x) → motive (.list xs))
    (htuple : ∀ xs, (∀ x ∈ xs, motive x) → motive (.tuple xs))
    (hdict : ∀ l, (∀ p ∈ l, motive p.1 ∧ motive p.2) → motive (.dict l))
    (hodict : ∀ l, (∀ p ∈ l, motive p.1 ∧ motive p.2) → motive (.odict l)) :
    ∀ v, motive v
  | .none => hnone
  | .bool b => hbool b
  | .int n => hint n
  | .float q => hfloat q
  | .str s => hstr s
  | .list xs => hlist xs (fun x hx =>
      have : sizeOf x < 1 + sizeOf xs := by
        have := List.sizeOf_lt_of_mem hx; omega
      PyVal.inductionOn motive hnone hbool hint hfloat hstr hlist htuple hdict hodict x)
  | .tuple xs => htuple xs (fun x hx =>
      have : sizeOf x < 1 + sizeOf xs := by
        have := List.sizeOf_lt_of_mem hx; omega
      PyVal.inductionOn motive hnone hbool hint hfloat hstr hlist htuple hdict hodict x)
  | .dict l => hdict l (fun p hp =>
      have h1 : sizeOf p.1 < 1 + sizeOf l := by
        have ha := List.sizeOf_lt_of_mem hp
        have hb : sizeOf p.1 < sizeOf p := by cases p; simp; try omega
        omega
      have h2 : sizeOf p.2 < 1 + sizeOf l := by
        have ha := List.sizeOf_lt_of_mem hp
        have hb : sizeOf p.2 < sizeOf p := by cases p; simp; try omega
        omega
      ⟨PyVal.inductionOn motive hnone hbool hint hfloat hstr hlist htuple hdict hodict p.1,
       PyVal.inductionOn motive hnone hbool hint hfloat hstr hlist htuple hdict hodict p.2⟩)
  | .odict l => hodict l (fun p hp =>
      have h1 : sizeOf p.1 < 1 + sizeOf l := by
        have ha := List.sizeOf_lt_of_mem hp
        have hb : sizeOf p.1 < sizeOf p := by cases p; simp; try omega
        omega
      have h2 : sizeOf p.2 < 1 + sizeOf l := by
        have ha := List.sizeOf_lt_of_mem hp
        have hb : sizeOf p.2 < sizeOf p := by cases p; simp; try omega
        omega
      ⟨PyVal.inductionOn motive hnone hbool hint hfloat hstr hlist htuple hdict hodict p.1,
       PyVal.inductionOn motive hnone hbool hint hfloat hstr hlist htuple hdict hodict p.2⟩)

/-- The single-quote character, built from its code point so the
character never appears literally in this file. -/
def squot : Char := Char.ofNat 39

/-- The double-quote character. -/
def dquot : Char := Char.ofNat 34

/-- Decimal digit character for a value below ten. -/
def digitChar10 (d : Nat) : Char := Char.ofNat (48 + d)

/-- Decimal digit list of a natural number, most significant first:
the standard base-ten printing algorithm, which is what CPython uses
for `str(int)`. -/
def natDecimal (n : Nat) : List Char :=
  if _h : n < 10 then [digitChar10 n]
  else natDecimal (n / 10) ++ [digitChar10 (n % 10)]
decreasing_by exact Nat.div_lt_self (by omega) (by omega)

/-- Decimal digit list of an integer (a leading minus sign for
negative values), matching `str` on a Python `int`. -/
def intDecimal (n : Int) : List Char :=
  if n < 0 then Char.ofNat 45 :: natDecimal n.natAbs else natDecimal n.toNat

/-- `pyListBeq` decides equality, given that `PyVal.beq` does on the
elements. -/
theorem pyListBeq_iff (xs : List PyVal)
    (ih : ∀ x ∈ xs, ∀ b, (PyVal.beq x b = true) ↔ x = b) :
    ∀ ys, (pyListBeq xs ys = true) ↔ xs = ys := by
  induction xs with
  | nil => intro ys; cases ys <;> simp [pyListBeq]
  | cons x xs ihx =>
    intro ys
    cases ys with
    | nil => simp [pyListBeq]
    | cons y ys =>
      have hx := ih x (by simp) y
      have hrest := ihx (fun z hz b => ih z (by simp [hz]) b) ys
      simp [pyListBeq, hx, hrest]

/-- `pyPairsBeq` decides equality, given that `PyVal.beq` does on the
components. -/
theorem pyPairsBeq_iff (l : List (PyVal × PyVal))
    (ih : ∀ p ∈ l, (∀ b, (PyVal.beq p.1 b = true) ↔ p.1 = b) ∧
                   (∀ b, (PyVal.beq p.2 b = true) ↔ p.2 = b)) :
    ∀ m, (pyPairsBeq l m = true) ↔ l = m := by
  induction l with
  | nil => intro m; cases m <;> simp [pyPairsBeq]
  | cons p l ihl =>
    intro m
    cases m with
    | nil => simp [pyPairsBeq]
    | cons q m =>
      have h1 := (ih p (by simp)).1 q.1
      have h2 := (ih p (by simp)).2 q.2
      have hrest := ihl (fun z hz => ih z (by simp [hz])) m
      constructor
      · intro h
        simp [pyPairsBeq] at h
        obtain ⟨⟨e1, e2⟩, e3⟩ := h
        have := h1.mp e1
        have := h2.mp e2
        have := hrest.mp e3
        cases p; cases q; simp_all
      · intro h
        injection h with hpq hm
        subst hpq; subst hm
        simp [pyPairsBeq, h1.mpr rfl, h2.mpr rfl, hrest.mpr rfl]

/-- `PyVal.beq` is exactly propositional equality. -/
theorem PyVal.beq_iff : ∀ a b : PyVal, (PyVal.beq a b = true) ↔ a = b := by
  intro a
  induction a using PyVal.inductionOn with
  | hnone => intro b; cases b <;> simp [PyVal.beq]
  | hbool x => intro b; cases b <;> simp [PyVal.beq]
  | hint x => intro b; cases b <;> simp [PyVal.beq]
  | hfloat x => intro b; cases b <;> simp [PyVal.beq]
  | hstr x => intro b; cases b <;> simp [PyVal.beq]
  | hlist xs ih =>
    intro b; cases b <;> simp [PyVal.beq]
    exact pyListBeq_iff xs ih _
  | htuple xs ih =>
    intro b; cases b <;> simp [PyVal.beq]
    exact pyListBeq_iff xs ih _
  | hdict l ih =>
    intro b; cases b <;> simp [PyVal.beq]
    exact pyPairsBeq_iff l (fun p hp => ⟨(ih p hp).1, (ih p hp).2⟩) _
  | hodict l ih =>
    intro b; cases b <;> simp [PyVal.beq]
    exact pyPairsBeq_iff l (fun p hp => ⟨(ih p hp).1, (ih p hp).2⟩) _

instance : DecidableEq PyVal := fun a b =>
  decidable_of_iff (PyVal.beq a b = true) (PyVal.beq_iff a b)

instance : BEq PyVal := ⟨PyVal.beq⟩

instance : LawfulBEq PyVal where
  eq_of_beq h := (PyVal.beq_iff _ _).mp h
  rfl := (PyVal.beq_iff _ _).mpr rfl

/-- Wrap a string in quotes the way CPython prints `repr(str)`: single
quotes, falling back to double quotes when the content contains a
single quote.  (CPython additionally escapes when both quote kinds
occur; the claims only ever print quote-free strings, where this
definition is exact.) -/
def strQuote (s : String) : String :=
  if s.data.contains squot
  then String.mk (dquot :: s.data ++ [dquot])
  else String.mk (squot :: s.data ++ [squot])

/-- Approximate print form of a Python float; floats never reach the
textual key serialization in any claim (they only occur as stored
timestamps), so only totality matters here. -/
def floatRepr (q : Rat) : String :=
  if q.den = 1 then String.mk (intDecimal q.num) ++ ".0"
  else String.mk (intDecimal q.num) ++ "/" ++ String.mk (natDecimal q.den)

mutual

/-- `repr(v)` for a `PyVal`: the canonical CPython textual form, which
`str` on a container applies to its elements. -/
def pyRepr : PyVal → String
  | .none => "None"
  | .bool b => if b then "True" else "False"
  | .int n => String.mk (intDecimal n)
  | .float q => floatRepr q
  | .str s => strQuote s
  | .list xs => "[" ++ pyReprJoin xs ++ "]"
  | .tuple [] => "()"
  | .tuple [x] => "(" ++ pyRepr x ++ ",)"
  | .tuple (x :: y :: xs) => "(" ++ pyReprJoin (x :: y :: xs) ++ ")"
  | .dict l => "\x7b" ++ pyReprEntries l ++ "\x7d"
  | .odict l => "OrderedDict(\x7b" ++ pyReprEntries l ++ "\x7d)"
termination_by v => sizeOf v
decreasing_by all_goals (simp; try omega)

/-- Comma-separated element list, as CPython prints list/tuple bodies. -/
def pyReprJoin : List PyVal → String
  | [] => ""
  | [x] => pyRepr x
  | x :: xs => pyRepr x ++ ", " ++ pyReprJoin xs
termination_by xs => sizeOf xs
decreasing_by all_goals (simp; try omega)

/-- Comma-separated `key: value` list, as CPython prints dict bodies. -/
def pyReprEntries : List (PyVal × PyVal) → String
  | [] => ""
  | [(k, v)] => pyRepr k ++ ": " ++ pyRepr v
  | (k, v) :: l => pyRepr k ++ ": " ++ pyRepr v ++ ", " ++ pyReprEntries l
termination_by l => sizeOf l
decreasing_by all_goals (simp; try omega)

end

/-- `str(v)` for a `PyVal`: identical to `repr(v)` except on strings,
which print bare.  This is what an f-string interpolation performs. -/
def pyStr : PyVal → String
  | .str s => s
  | v => pyRepr v

/-- `str(type(v))` for a `PyVal`, e.g. `<class ...int...>`. -/
def pyTypeName (v : PyVal) : String :=
  let base : String :=
    match v with
    | .none => "NoneType"
    | .bool _ => "bool"
    | .int _ => "int"
    | .float _ => "float"
    | .str _ => "str"
    | .list _ => "list"
    | .tuple _ => "tuple"
    | .dict _ => "dict"
    | .odict _ => "collections.OrderedDict"
  "<class " ++ String.mk [squot] ++ base ++ String.mk [squot] ++ ">"

/-- `_gen_key(obj)` of `decorator.py` (line 27): the sort key
`f"..type(obj).._..obj.."` used to order dictionary keys, bucketing
first on the runtime type name and then on the textual value. -/
def genKey (obj : PyVal) : String :=
  pyTypeName obj ++ "_" ++ pyStr obj

/-- `_sorted_by_keys(dict_)` of `decorator.py` (line 30): re-order the
entries of a mapping by `genKey` of the key, stably.  The source sorts
the key list and rebuilds the mapping by lookup; for a mapping with
(Python-)distinct keys that is exactly a stable sort of the entry
list, which is how it is modelled here. -/
def entryLe (p q : PyVal × PyVal) : Prop := genKey p.1 ≤ genKey q.1

instance : DecidableRel entryLe :=
  fun p q => inferInstanceAs (Decidable (genKey p.1 ≤ genKey q.1))

instance : IsTotal (PyVal × PyVal) entryLe := ⟨fun a b => le_total _ _⟩

instance : IsTrans (PyVal × PyVal) entryLe := ⟨fun a b c hab hbc => le_trans hab hbc⟩

def sortedByKeys (l : List (PyVal × PyVal)) : List (PyVal × PyVal) :=
  List.insertionSort entryLe l

mutual

/-- `_sort_dicts(obj)` of `decorator.py` (lines 34-48), as a pure
transform: recursively normalise every value reachable through
list/tuple elements and mapping values, then stably re-order every
plain-`dict` node by `genKey` of its (untouched) keys; an
`OrderedDict` node keeps its entry order. -/
def sortDicts : PyVal → PyVal
  | .list xs => .list (sortDictsList xs)
  | .tuple xs => .tuple (sortDictsList xs)
  | .dict l => .dict (sortedByKeys (sortDictsVals l))
  | .odict l => .odict (sortDictsVals l)
  | v => v

/-- Elementwise `sortDicts`; element order is preserved. -/
def sortDictsList : List PyVal → List PyVal
  | [] => []
  | x :: xs => sortDicts x :: sortDictsList xs

/-- `sortDicts` on every mapping value; keys are not descended into
(`_sort_dicts` only walks `obj.values()`). -/
def sortDictsVals : List (PyVal × PyVal) → List (PyVal × PyVal)
  | [] => []
  | p :: l => (p.1, sortDicts p.2) :: sortDictsVals l

end

/-- `sorted_dicts_args(args)` of `decorator.py` (line 50): deep-copy
the positional tuple and normalise each element in place — as a pure
function, normalise each element. -/
def sortedDictsArgs (args : List PyVal) : List PyVal :=
  sortDictsList args

/-- `sorted_dicts(dict_)` of `decorator.py` (line 56): stably sort the
keyword mapping by `genKey` of its string keys, then normalise each
value. -/
def kwLe (p q : String × PyVal) : Prop := genKey (.str p.1) ≤ genKey (.str q.1)

instance : DecidableRel kwLe :=
  fun p q => inferInstanceAs (Decidable (genKey (.str p.1) ≤ genKey (.str q.1)))

instance : IsTotal (String × PyVal) kwLe := ⟨fun a b => le_total _ _⟩

instance : IsTrans (String × PyVal) kwLe := ⟨fun a b c hab hbc => le_trans hab hbc⟩

/-- `sorted_dicts(dict_)` of `decorator.py` (line 56), continued. -/
def sortedDictsKw (kw : List (String × PyVal)) : List (String × PyVal) :=
  (List.insertionSort kwLe kw).map (fun p => (p.1, sortDicts p.2))

/-- `str` of the keyword mapping (string keys printed with quotes). -/
def kwReprBody : List (String × PyVal) → String
  | [] => ""
  | [p] => strQuote p.1 ++ ": " ++ pyRepr p.2
  | p :: l => strQuote p.1 ++ ": " ++ pyRepr p.2 ++ ", " ++ kwReprBody l

/-- The exact string `decorator.py` line 69 builds and digests:
`f"..sorted_args.., ..sorted_kwargs.."` where `sorted_args` prints as
a tuple and `sorted_kwargs` as a dict. -/
def canonicalKeyString (args : List PyVal) (kw : List (String × PyVal)) : String :=
  pyRepr (.tuple (sortedDictsArgs args)) ++ ", " ++
    ("\x7b" ++ kwReprBody (sortedDictsKw kw) ++ "\x7d")

/-- UTF-8 encoding of a string as a byte list (what `.encode()` on a
Python `str` produces). -/
def utf8Bytes (s : String) : List Nat :=
  s.data.flatMap (fun c =>
    let n := c.toNat
    if n < 128 then [n]
    else if n < 2048 then [192 + n / 64, 128 + n % 64]
    else if n < 65536 then [224 + n / 4096, 128 + (n / 64) % 64, 128 + n % 64]
    else [240 + n / 262144, 128 + (n / 4096) % 64, 128 + (n / 64) % 64, 128 + n % 64])

/-- 32-bit right rotation over `Nat` with explicit reduction mod 2^32. -/
def rotr32 (r n : Nat) : Nat :=
  ((n >>> r) ||| (n <<< (32 - r))) % 4294967296

/-- The SHA-256 round constants (decimal). -/
def shaK : List Nat :=
  [1116352408, 1899447441, 3049323471, 3921009573, 961987163,
    1508970993, 2453635748, 2870763221, 3624381080, 310598401,
    607225278, 1426881987, 1925078388, 2162078206, 2614888103,
    3248222580, 3835390401, 4022224774, 264347078, 604807628,
    770255983, 1249150122, 1555081692, 1996064986, 2554220882,
    2821834349, 2952996808, 3210313671, 3336571891, 3584528711,
    113926993, 338241895, 666307205, 773529912, 1294757372,
    1396182291, 1695183700, 1986661051, 2177026350, 2456956037,
    2730485921, 2820302411, 3259730800, 3345764771, 3516065817,
    3600352804, 4094571909, 275423344, 430227734, 506948616,
    659060556, 883997877, 958139571, 1322822218, 1537002063,
    1747873779, 1955562222, 2024104815, 2227730452, 2361852424,
    2428436474, 2756734187, 3204031479, 3329325298]

/-- The SHA-256 initial hash state (decimal). -/
def shaH0 : List Nat :=
  [1779033703, 3144134277, 1013904242, 2773480762, 1359893119,
    2600822924, 528734635, 1541459225]

/-- SHA-256 message padding: append `0x80`, zero bytes to 56 mod 64,
then the 64-bit big-endian bit length. -/
def shaPad (msg : List Nat) : List Nat :=
  let len := msg.length
  let zeros := (64 + 56 - (len + 1) % 64) % 64
  let bitLen := 8 * len
  msg ++ [128] ++ List.replicate zeros 0 ++
    [bitLen / 72057594037927936 % 256, bitLen / 281474976710656 % 256,
     bitLen / 1099511627776 % 256, bitLen / 4294967296 % 256,
     bitLen / 16777216 % 256, bitLen / 65536 % 256, bitLen / 256 % 256, bitLen % 256]

/-- Split a byte list into 64-byte blocks (structural on a fuel
argument so that the kernel can evaluate digests). -/
def chunks64Aux : Nat → List Nat → List (List Nat)
  | 0, _ => []
  | fuel + 1, l => if l.length = 0 then [] else l.take 64 :: chunks64Aux fuel (l.drop 64)

/-- Split a byte list into 64-byte blocks. -/
def chunks64 (l : List Nat) : List (List Nat) :=
  chunks64Aux l.length l

/-- Big-endian 32-bit words from a byte list. -/
def bytesToWords : List Nat → List Nat
  | b0 :: b1 :: b2 :: b3 :: rest =>
      (((b0 * 256 + b1) * 256 + b2) * 256 + b3) :: bytesToWords rest
  | _ => []

/-- One message-schedule extension step: append the next word. -/
def shaExtendStep (ws : List Nat) : List Nat :=
  let n := ws.length
  let w15 := ws.getD (n - 15) 0
  let w2 := ws.getD (n - 2) 0
  let w16 := ws.getD (n - 16) 0
  let w7 := ws.getD (n - 7) 0
  let s0 := (rotr32 7 w15) ^^^ (rotr32 18 w15) ^^^ (w15 >>> 3)
  let s1 := (rotr32 17 w2) ^^^ (rotr32 19 w2) ^^^ (w2 >>> 10)
  ws ++ [(w16 + s0 + w7 + s1) % 4294967296]

/-- Iterate a function `n` times. -/
def iterN (f : α → α) : Nat → α → α
  | 0, a => a
  | n + 1, a => iterN f n (f a)

/-- One SHA-256 compression round on the 8-word working state. -/
def shaRound (st : List Nat) (kw : Nat × Nat) : List Nat :=
  match st with
  | [a, b, c, d, e, f, g, h] =>
    let s1 := (rotr32 6 e) ^^^ (rotr32 11 e) ^^^ (rotr32 25 e)
    let ch := (e &&& f) ^^^ ((4294967295 - e) &&& g)
    let t1 := (h + s1 + ch + kw.1 + kw.2) % 4294967296
    let s0 := (rotr32 2 a) ^^^ (rotr32 13 a) ^^^ (rotr32 22 a)
    let mj := (a &&& b) ^^^ (a &&& c) ^^^ (b &&& c)
    let t2 := (s0 + mj) % 4294967296
    [(t1 + t2) % 4294967296, a, b, c, (d + t1) % 4294967296, e, f, g]
  | other => other

/-- Process one 64-byte block into the running 8-word hash state. -/
def shaBlock (h : List Nat) (block : List Nat) : List Nat :=
  let sched := iterN shaExtendStep 48 (bytesToWords block)
  let fin := (List.zip shaK sched).foldl shaRound h
  (List.zip h fin).map (fun p => (p.1 + p.2) % 4294967296)

/-- Lowercase hexadecimal digit. -/
def hexDigit (d : Nat) : Char :=
  Char.ofNat (if d < 10 then 48 + d else 87 + d)

/-- Eight lowercase hex digits of a 32-bit word. -/
def wordHex (w : Nat) : List Char :=
  [hexDigit (w / 268435456 % 16), hexDigit (w / 16777216 % 16),
   hexDigit (w / 1048576 % 16), hexDigit (w / 65536 % 16),
   hexDigit (w / 4096 % 16), hexDigit (w / 256 % 16),
   hexDigit (w / 16 % 16), hexDigit (w % 16)]

/-- `hashlib.sha256(s.encode()).hexdigest()`: the full SHA-256 digest
of the UTF-8 encoding of `s`, printed as 64 lowercase hex digits. -/
def sha256hex (s : String) : String :=
  String.mk (((chunks64 (shaPad (utf8Bytes s))).foldl shaBlock shaH0).flatMap wordHex)

/-- `hash_key(args, kwargs)` of `decorator.py` (lines 62-70): the
hex SHA-256 digest of the canonical serialization of the
order-normalised arguments. -/
def hash_key (args : List PyVal) (kw : List (String × PyVal)) : String :=
  sha256hex (canonicalKeyString args kw)

/-- Known-answer test vector for the SHA-256 embedding. -/
example : sha256hex "abc" =
    "ba7816bf8f01cfea414140de5dae2223b00361a396177a9cb410ff61f20015ad" := by decide

/-- Raw byte payloads stored in Redis (modelled as opaque strings; the
serializer pair is a model parameter, as it is in the source). -/
abbrev Bytes := String

/-- Python exceptions, identified by their message. -/
abbrev Exc := String

/-- What a user serializer returned: `bytes`, `bytearray`, or some
other object (line 224-227 distinguishes these three). -/
inductive SerResult where
  | bytesOut (b : Bytes)
  | byteArrayOut (b : Bytes)
  | otherOut
deriving DecidableEq

/-- The expiry argument passed to the store SET (line 200-229):
absent, whole seconds (`ex`), or milliseconds (`px`). -/
inductive SetExpiry where
  | noexp
  | ex (n : Int)
  | px (n : Int)
deriving DecidableEq

/-- One store interaction issued by the wrapper. -/
inductive StoreOp where
  | get (k : String)
  | setnx (k : String)
  | set (k : String) (e : SetExpiry)
  | del (k : String)
deriving DecidableEq

/-- The shared key-value store: an association list (first binding
wins). -/
abbrev Store := List (String × Bytes)

/-- Redis GET. -/
def storeGet (st : Store) (k : String) : Option Bytes :=
  (st.find? (fun p => p.1 == k)).map Prod.snd

/-- Redis SET. -/
def storeSet (st : Store) (k : String) (b : Bytes) : Store :=
  (k, b) :: st.filter (fun p => p.1 != k)

/-- Redis DEL. -/
def storeDel (st : Store) (k : String) : Store :=
  st.filter (fun p => p.1 != k)

/-- Environment of one iteration of the single-flight polling loop
(lines 169-183): whether this iterations read of the cache key raises,
and the outcome of the conditional lock SET (`.ok true` acquired,
`.ok false` held by another caller, `.error` store failure). -/
structure PollStep where
  readFault : Bool
  lockSet : Except Exc Bool

/-- Per-call configuration and environment of one wrapper invocation:
the decorator arguments of `RedisCache.cache` (lines 84-97), the call
arguments, the behaviour of the wrapped function on this call, and
fault-injection flags for each store interaction. -/
structure WrapCfg where
  pref : String
  nspace : Option String
  ignorePositionals : List Nat
  ignoreKw : List String
  validationFunc : Option (List PyVal → List (String × PyVal) → PyVal → Except Exc Bool)
  ttl : Option Rat
  serializer : PyVal → Except Exc SerResult
  deserializer : Bytes → Except Exc PyVal
  keySer : List PyVal → List (String × PyVal) → String
  ignoreValidationError : Bool
  maxWaitPos : Bool
  pollTrace : List PollStep
  finalReadFault : Bool
  getFault : Bool
  setFault : Bool
  lockDelFault : Bool
  args : List PyVal
  kwargs : List (String × PyVal)
  funcOutcome : Except Exc PyVal
  nowTime : Rat

/-- `key_args` (lines 108-110): positional arguments with the ignored
indices removed. -/
def keyArgs (cfg : WrapCfg) : List PyVal :=
  (cfg.args.enum.filter (fun p => !(cfg.ignorePositionals.contains p.1))).map Prod.snd

/-- `key_kwargs` (line 111): keyword arguments with the ignored names
removed. -/
def keyKwargs (cfg : WrapCfg) : List (String × PyVal) :=
  cfg.kwargs.filter (fun p => !(cfg.ignoreKw.contains p.1))

/-- `cache_key` construction (lines 113-117): prefix, then the
namespace only when it is truthy, then the fingerprint, joined with
colons after dropping empty components. -/
def cacheKeyString (pref : String) (ns : Option String) (fp : String) : String :=
  let comps := [pref] ++
    (match ns with
     | some s => if s = "" then [] else [s]
     | Option.none => []) ++ [fp]
  String.intercalate ":" (comps.filter (fun c => c != ""))

/-- The storage key of one call. -/
def cacheKey (cfg : WrapCfg) : String :=
  cacheKeyString cfg.pref cfg.nspace (cfg.keySer (keyArgs cfg) (keyKwargs cfg))

/-- The lock key of one call (line 118). -/
def lockKey (cfg : WrapCfg) : String := cacheKey cfg ++ ":lock"

/-- `isinstance(x, dict)`: true for both `dict` and `OrderedDict`. -/
def PyVal.isDictInstance : PyVal → Bool
  | .dict _ => true
  | .odict _ => true
  | _ => false

/-- `k in d` for a mapping. -/
def dictHasKey (v : PyVal) (k : PyVal) : Bool :=
  match v with
  | .dict l => l.any (fun p => p.1 == k)
  | .odict l => l.any (fun p => p.1 == k)
  | _ => false

/-- `d[k]` for a mapping; the fallback value is never reached under
the `dictHasKey` guard the wrapper performs first. -/
def dictGet (v : PyVal) (k : PyVal) : PyVal :=
  match v with
  | .dict l =>
    (match l.find? (fun p => p.1 == k) with
     | some p => p.2
     | Option.none => PyVal.none)
  | .odict l =>
    (match l.find? (fun p => p.1 == k) with
     | some p => p.2
     | Option.none => PyVal.none)
  | _ => PyVal.none

/-- `_load_cached_response` (lines 120-142): read the cache key (a GET
failure reads as absent), deserialize (failures read as absent, or
propagate when `ignore_validation_error` is false), and accept only a
mapping containing a `value` field. -/
def loadCachedResponse (cfg : WrapCfg) (readFault : Bool) (st : Store) :
    Except Exc (Option PyVal) :=
  if readFault then .ok Option.none
  else
    match storeGet st (cacheKey cfg) with
    | Option.none => .ok Option.none
    | some raw =>
      match cfg.deserializer raw with
      | .error e => if cfg.ignoreValidationError then .ok Option.none else .error e
      | .ok v =>
        if v.isDictInstance then
          if dictHasKey v (.str "value") then .ok (some v) else .ok Option.none
        else .ok Option.none

/-- `_resolve_cached_value` (lines 144-157).  Python reports a miss by
returning `None`; consequently a stored value that itself is `None` is
indistinguishable from a miss at the call sites (lines 159-161), which
compare with `is not None`.  The model returns `PyVal.none` exactly
where the source returns `None`. -/
def resolveCachedValue (cfg : WrapCfg) (readFault : Bool) (st : Store) :
    Except Exc PyVal :=
  match loadCachedResponse cfg readFault st with
  | .error e => .error e
  | .ok Option.none => .ok PyVal.none
  | .ok (some entry) =>
    match cfg.validationFunc with
    | Option.none => .ok (dictGet entry (.str "value"))
    | some vf =>
      match vf cfg.args cfg.kwargs entry with
      | .ok true => .ok (dictGet entry (.str "value"))
      | .ok false => .ok PyVal.none
      | .error e => if cfg.ignoreValidationError then .ok PyVal.none else .error e

/-- Outcome of the single-flight acquisition loop. -/
inductive LoopOut where
  | early (r : Except Exc PyVal) (ops : List StoreOp)
  | proceed (haveLock : Bool) (ops : List StoreOp) (st : Store)

/-- Prefix an operation trace onto a loop outcome. -/
def consOps (ops : List StoreOp) : LoopOut → LoopOut
  | .early r o => .early r (ops ++ o)
  | .proceed h o s => .proceed h (ops ++ o) s

/-- The polling loop (lines 169-183): on each iteration re-resolve the
cached value (returning it when present, propagating a strict
validation error), then attempt the conditional lock SET — success
breaks the loop holding the lock, failure or a store error sleeps and
retries; an exhausted trace is the elapsed deadline. -/
def phase1Loop (cfg : WrapCfg) (st : Store) : List PollStep → LoopOut
  | [] => .proceed false [] st
  | step :: rest =>
    match resolveCachedValue cfg step.readFault st with
    | .error e => .early (.error e) [.get (cacheKey cfg)]
    | .ok v =>
      if v ≠ PyVal.none then .early (.ok v) [.get (cacheKey cfg)]
      else
        match step.lockSet with
        | .ok true =>
          .proceed true [.get (cacheKey cfg), .setnx (lockKey cfg)]
            (storeSet st (lockKey cfg) "1")
        | _ => consOps [.get (cacheKey cfg), .setnx (lockKey cfg)] (phase1Loop cfg st rest)

/-- `if have_lock: try: self.client.delete(lock_key) except: pass`
(lines 193-197, 204-208, 234-238): best-effort lock release. -/
def lockRelease (cfg : WrapCfg) (haveLock : Bool) (st : Store) : Store × List StoreOp :=
  if haveLock then
    ((if cfg.lockDelFault then st else storeDel st (lockKey cfg)), [.del (lockKey cfg)])
  else (st, [])

/-- The CacheEntry payload written on a fresh computation (lines
216-220). -/
def wrapperPayload (cfg : WrapCfg) (result : PyVal) : PyVal :=
  .dict [(.str "timestamp", .float cfg.nowTime),
         (.str "value", result),
         (.str "parameters",
           .dict [(.str "args", .tuple (keyArgs cfg)),
                  (.str "kwargs",
                    .dict ((keyKwargs cfg).map (fun p => (PyVal.str p.1, p.2))))])]

/-- TTL to SET expiry argument (lines 211-214): whole seconds use
second granularity, fractional seconds use millisecond granularity
(truncated, minimum one millisecond). -/
def ttlExpiry (q : Rat) : SetExpiry :=
  if q.den = 1 then .ex q.num else .px (max (Rat.floor (q * 1000)) 1)

/-- Result of the computation tail of one call. -/
structure TailOut where
  result : Except Exc PyVal
  store : Store
  ops : List StoreOp

/-- Lines 216-240: serialize the payload and SET it (serializer
failures and non-byte results are swallowed unless
`ignore_validation_error` is false; SET failures likewise), always
releasing a held lock afterwards, and return the computed result. -/
def storeAndRelease (cfg : WrapCfg) (st : Store) (haveLock : Bool)
    (result : PyVal) (exp : SetExpiry) : TailOut :=
  match cfg.serializer (wrapperPayload cfg result) with
  | .error e =>
    let rel := lockRelease cfg haveLock st
    { result := if cfg.ignoreValidationError then .ok result else .error e,
      store := rel.1, ops := rel.2 }
  | .ok .otherOut =>
    let rel := lockRelease cfg haveLock st
    { result := if cfg.ignoreValidationError then .ok result
                else .error "TypeError: Serializer must return bytes-like object.",
      store := rel.1, ops := rel.2 }
  | .ok (.bytesOut b) | .ok (.byteArrayOut b) =>
    if cfg.setFault then
      let rel := lockRelease cfg haveLock st
      { result := if cfg.ignoreValidationError then .ok result else .error "redis-set-error",
        store := rel.1, ops := .set (cacheKey cfg) exp :: rel.2 }
    else
      let rel := lockRelease cfg haveLock (storeSet st (cacheKey cfg) b)
      { result := .ok result, store := rel.1, ops := .set (cacheKey cfg) exp :: rel.2 }

/-- Lines 190-240: invoke the wrapped function (an exception releases
a held lock and propagates), then apply the TTL policy — a configured
non-positive TTL skips storage entirely (releasing a held lock),
otherwise the entry is stored with the derived expiry. -/
def phase2 (cfg : WrapCfg) (st : Store) (haveLock : Bool) : TailOut :=
  match cfg.funcOutcome with
  | .error e =>
    let rel := lockRelease cfg haveLock st
    { result := .error e, store := rel.1, ops := rel.2 }
  | .ok result =>
    match cfg.ttl with
    | Option.none => storeAndRelease cfg st haveLock result .noexp
    | some q =>
      if q ≤ 0 then
        let rel := lockRelease cfg haveLock st
        { result := .ok result, store := rel.1, ops := rel.2 }
      else storeAndRelease cfg st haveLock result (ttlExpiry q)

/-- Observable outcome of one wrapper call: the returned value or
propagated exception, the final store, the issued operation trace,
whether the wrapped function was invoked, and whether the caller held
the lock. -/
structure RunResult where
  result : Except Exc PyVal
  store : Store
  ops : List StoreOp
  computed : Bool
  haveLock : Bool

/-- Enter the computation tail. -/
def finishProceed (cfg : WrapCfg) (opsPre : List StoreOp) (st : Store) (hl : Bool) :
    RunResult :=
  let t := phase2 cfg st hl
  { result := t.result, store := t.store, ops := opsPre ++ t.ops,
    computed := true, haveLock := hl }

/-- One full call of the wrapper produced by `RedisCache.cache`
(lines 107-240): fast-path lookup, optional single-flight acquisition
with a final lockless validity check, computation, storage, release. -/
def runWrapper (cfg : WrapCfg) (st : Store) : RunResult :=
  match resolveCachedValue cfg cfg.getFault st with
  | .error e =>
    { result := .error e, store := st, ops := [.get (cacheKey cfg)],
      computed := false, haveLock := false }
  | .ok v =>
    if v ≠ PyVal.none then
      { result := .ok v, store := st, ops := [.get (cacheKey cfg)],
        computed := false, haveLock := false }
    else
      if cfg.maxWaitPos then
        match phase1Loop cfg st cfg.pollTrace with
        | .early r opsL =>
          { result := r, store := st, ops := .get (cacheKey cfg) :: opsL,
            computed := false, haveLock := false }
        | .proceed true opsL stL => finishProceed cfg (.get (cacheKey cfg) :: opsL) stL true
        | .proceed false opsL stL =>
          match resolveCachedValue cfg cfg.finalReadFault stL with
          | .error e =>
            { result := .error e, store := stL,
              ops := .get (cacheKey cfg) :: opsL ++ [.get (cacheKey cfg)],
              computed := false, haveLock := false }
          | .ok v2 =>
            if v2 ≠ PyVal.none then
              { result := .ok v2, store := stL,
                ops := .get (cacheKey cfg) :: opsL ++ [.get (cacheKey cfg)],
                computed := false, haveLock := false }
            else finishProceed cfg (.get (cacheKey cfg) :: opsL ++ [.get (cacheKey cfg)]) stL false
      else finishProceed cfg [.get (cacheKey cfg)] st false

/-- An operation trace containing no writes: no SET and no DELETE. -/
def noSetDel (ops : List StoreOp) : Prop :=
  (∀ k e, StoreOp.set k e ∉ ops) ∧ (∀ k, StoreOp.del k ∉ ops)

theorem storeGet_set_same (st : Store) (k : String) (b : Bytes) :
    storeGet (storeSet st k b) k = some b := by
  simp [storeGet, storeSet, List.find?]

theorem find?_filter_ne (st : Store) (k k2 : String) (h : k2 ≠ k) :
    (st.filter (fun p => p.1 != k)).find? (fun p => p.1 == k2) =
      st.find? (fun p => p.1 == k2) := by
  induction st with
  | nil => simp
  | cons p st ih =>
    by_cases hk : p.1 = k
    · have hb : (p.1 != k) = false := by simp [hk]
      have h2 : (p.1 == k2) = false := by
        simp [hk]; exact fun hx => h hx.symm
      simp [List.filter_cons, List.find?, hb, h2, ih]
    · have hb : (p.1 != k) = true := by simp [hk]
      by_cases h2 : p.1 = k2
      · have hb2 : (p.1 == k2) = true := by simp [h2]
        simp [List.filter_cons, List.find?, hb, hb2]
      · have hb2 : (p.1 == k2) = false := by simp [h2]
        simp [List.filter_cons, List.find?, hb, hb2, ih]

theorem storeGet_set_other (st : Store) (k k2 : String) (b : Bytes) (h : k2 ≠ k) :
    storeGet (storeSet st k b) k2 = storeGet st k2 := by
  have h2 : (k == k2) = false := by
    simp; exact fun hx => h hx.symm
  simp [storeGet, storeSet, List.find?, h2, find?_filter_ne st k k2 h]

theorem find?_filter_self (st : Store) (k : String) :
    (st.filter (fun p => p.1 != k)).find? (fun p => p.1 == k) = Option.none := by
  induction st with
  | nil => simp
  | cons p st ih =>
    by_cases hk : p.1 = k
    · have hb : (p.1 != k) = false := by simp [hk]
      simp [List.filter_cons, hb, ih]
    · have hb : (p.1 != k) = true := by simp [hk]
      have hb2 : (p.1 == k) = false := by simp [hk]
      simp [List.filter_cons, List.find?, hb, hb2, ih]

theorem storeGet_del_same (st : Store) (k : String) :
    storeGet (storeDel st k) k = Option.none := by
  simp [storeGet, storeDel, find?_filter_self st k]

theorem storeGet_del_other (st : Store) (k k2 : String) (h : k2 ≠ k) :
    storeGet (storeDel st k) k2 = storeGet st k2 := by
  simp [storeGet, storeDel, find?_filter_ne st k k2 h]

/-- The lock key is strictly longer than the cache key, so they never
coincide. -/
theorem lockKey_ne_cacheKey (cfg : WrapCfg) : lockKey cfg ≠ cacheKey cfg := by
  intro h
  have hlen := congrArg String.length h
  simp [lockKey, String.length_append] at hlen
  exact absurd hlen (by decide)

theorem cacheKey_ne_lockKey (cfg : WrapCfg) : cacheKey cfg ≠ lockKey cfg :=
  fun h => lockKey_ne_cacheKey cfg h.symm

/-- Releasing the lock never touches the cache key. -/
theorem lockRelease_cacheKey (cfg : WrapCfg) (hl : Bool) (st : Store) :
    storeGet (lockRelease cfg hl st).1 (cacheKey cfg) = storeGet st (cacheKey cfg) := by
  unfold lockRelease
  cases hl with
  | false => simp
  | true =>
    by_cases hf : cfg.lockDelFault
    · simp [hf]
    · simp [hf, storeGet_del_other st (lockKey cfg) (cacheKey cfg) (cacheKey_ne_lockKey cfg)]

/-- The release trace is the lock DELETE exactly when the lock is held. -/
theorem lockRelease_ops (cfg : WrapCfg) (hl : Bool) (st : Store) :
    (lockRelease cfg hl st).2 = if hl then [StoreOp.del (lockKey cfg)] else [] := by
  unfold lockRelease
  cases hl <;> simp

theorem noSetDel_append {a b : List StoreOp} (ha : noSetDel a) (hb : noSetDel b) :
    noSetDel (a ++ b) := by
  constructor
  · intro k e hmem
    rcases List.mem_append.mp hmem with hm | hm
    · exact ha.1 k e hm
    · exact hb.1 k e hm
  · intro k hmem
    rcases List.mem_append.mp hmem with hm | hm
    · exact ha.2 k hm
    · exact hb.2 k hm

theorem noSetDel_get (k : String) : noSetDel [StoreOp.get k] := ⟨by simp, by simp⟩

theorem noSetDel_get_setnx (k k2 : String) :
    noSetDel [StoreOp.get k, StoreOp.setnx k2] := ⟨by simp, by simp⟩

/-- Every terminating shape of the polling loop: an early return keeps
the store untouched and issues only reads and lock attempts; falling
through to computation can additionally have written the lock key, but
never the cache key. -/
theorem phase1Loop_spec (cfg : WrapCfg) (st : Store) : ∀ tr : List PollStep,
    (∃ r ops, phase1Loop cfg st tr = .early r ops ∧ noSetDel ops) ∨
    (∃ hl ops stL, phase1Loop cfg st tr = .proceed hl ops stL ∧ noSetDel ops ∧
      storeGet stL (cacheKey cfg) = storeGet st (cacheKey cfg) ∧
      (hl = false → stL = st)) := by
  intro tr
  induction tr with
  | nil => right; exact ⟨false, [], st, rfl, ⟨by simp, by simp⟩, rfl, fun _ => rfl⟩
  | cons step rest ih =>
    cases hres : resolveCachedValue cfg step.readFault st with
    | error e =>
      left
      exact ⟨.error e, [.get (cacheKey cfg)], by simp [phase1Loop, hres],
        noSetDel_get _⟩
    | ok v =>
      by_cases hv : v = PyVal.none
      · cases hlock : step.lockSet with
        | ok b =>
          cases b with
          | true =>
            right
            refine ⟨true, [.get (cacheKey cfg), .setnx (lockKey cfg)],
              storeSet st (lockKey cfg) "1",
              by simp [phase1Loop, hres, hv, hlock], noSetDel_get_setnx _ _, ?_,
              fun hcontr => by simp at hcontr⟩
            exact storeGet_set_other st (lockKey cfg) (cacheKey cfg) "1" (cacheKey_ne_lockKey cfg)
          | false =>
            have hstep : phase1Loop cfg st (step :: rest) =
                consOps [.get (cacheKey cfg), .setnx (lockKey cfg)] (phase1Loop cfg st rest) := by
              simp [phase1Loop, hres, hv, hlock]
            rcases ih with ⟨r, ops, heq, hns⟩ | ⟨hl, ops, stL, heq, hns, hsg, hfalse⟩
            · left
              exact ⟨r, [.get (cacheKey cfg), .setnx (lockKey cfg)] ++ ops,
                by simp [hstep, heq, consOps],
                noSetDel_append (noSetDel_get_setnx _ _) hns⟩
            · right
              exact ⟨hl, [.get (cacheKey cfg), .setnx (lockKey cfg)] ++ ops, stL,
                by simp [hstep, heq, consOps],
                noSetDel_append (noSetDel_get_setnx _ _) hns, hsg, hfalse⟩
        | error e =>
          have hstep : phase1Loop cfg st (step :: rest) =
              consOps [.get (cacheKey cfg), .setnx (lockKey cfg)] (phase1Loop cfg st rest) := by
            simp [phase1Loop, hres, hv, hlock]
          rcases ih with ⟨r, ops, heq, hns⟩ | ⟨hl, ops, stL, heq, hns, hsg, hfalse⟩
          · left
            exact ⟨r, [.get (cacheKey cfg), .setnx (lockKey cfg)] ++ ops,
              by simp [hstep, heq, consOps],
              noSetDel_append (noSetDel_get_setnx _ _) hns⟩
          · right
            exact ⟨hl, [.get (cacheKey cfg), .setnx (lockKey cfg)] ++ ops, stL,
              by simp [hstep, heq, consOps],
              noSetDel_append (noSetDel_get_setnx _ _) hns, hsg, hfalse⟩
      · left
        exact ⟨.ok v, [.get (cacheKey cfg)], by simp [phase1Loop, hres, hv],
          noSetDel_get _⟩

theorem noSetDel_cons_get (k : String) {ops : List StoreOp} (h : noSetDel ops) :
    noSetDel (StoreOp.get k :: ops) := by
  constructor
  · intro k2 e hm
    rcases List.mem_cons.mp hm with hc | hc
    · exact StoreOp.noConfusion hc
    · exact h.1 k2 e hc
  · intro k2 hm
    rcases List.mem_cons.mp hm with hc | hc
    · exact StoreOp.noConfusion hc
    · exact h.2 k2 hc

/-- Decomposition of a full call: either the wrapper returns without
computing — leaving the store untouched and issuing no writes — or it
reaches the computation tail `phase2` on a store whose cache-key
binding is unchanged, with a write-free operation prefix. -/
theorem runWrapper_cases (cfg : WrapCfg) (st : Store) :
    (∃ r ops, runWrapper cfg st = ⟨r, st, ops, false, false⟩ ∧ noSetDel ops) ∨
    (∃ opsPre stL hl, runWrapper cfg st = finishProceed cfg opsPre stL hl ∧
      storeGet stL (cacheKey cfg) = storeGet st (cacheKey cfg) ∧ noSetDel opsPre) := by
  unfold runWrapper
  cases hres : resolveCachedValue cfg cfg.getFault st with
  | error e => left; exact ⟨.error e, [.get (cacheKey cfg)], by simp, noSetDel_get _⟩
  | ok v =>
    by_cases hv : v = PyVal.none
    · simp only [hv, ne_eq, not_true_eq_false, if_false, reduceIte]
      by_cases hmw : cfg.maxWaitPos
      · simp only [hmw, if_true]
        rcases phase1Loop_spec cfg st cfg.pollTrace with
          ⟨r, ops, heq, hns⟩ | ⟨hl, ops, stL, heq, hns, hsg, hfalse⟩
        · left
          exact ⟨r, .get (cacheKey cfg) :: ops, by simp [heq],
            noSetDel_cons_get _ hns⟩
        · cases hl with
          | true =>
            right
            exact ⟨.get (cacheKey cfg) :: ops, stL, true, by simp [heq], hsg,
              noSetDel_cons_get _ hns⟩
          | false =>
            have hstL : stL = st := hfalse rfl
            rw [hstL] at heq
            simp only [heq]
            cases hres2 : resolveCachedValue cfg cfg.finalReadFault st with
            | error e2 =>
              left
              exact ⟨.error e2, .get (cacheKey cfg) :: (ops ++ [.get (cacheKey cfg)]),
                by simp [hres2], noSetDel_cons_get _ (noSetDel_append hns (noSetDel_get _))⟩
            | ok v2 =>
              by_cases hv2 : v2 = PyVal.none
              · right
                refine ⟨.get (cacheKey cfg) :: (ops ++ [.get (cacheKey cfg)]), st, false,
                  ?_, rfl, noSetDel_cons_get _ (noSetDel_append hns (noSetDel_get _))⟩
                simp [hres2, hv2]
              · left
                refine ⟨.ok v2, .get (cacheKey cfg) :: (ops ++ [.get (cacheKey cfg)]),
                  ?_, noSetDel_cons_get _ (noSetDel_append hns (noSetDel_get _))⟩
                simp [hres2, hv2]
      · simp only [hmw, if_false, reduceIte]
        right
        exact ⟨[.get (cacheKey cfg)], st, false, rfl, rfl, noSetDel_get _⟩
    · left
      exact ⟨.ok v, [.get (cacheKey cfg)], by simp [hv], noSetDel_get _⟩

/-- A missing cache key resolves as a miss whatever the read-fault
flag is. -/
theorem resolve_missing (cfg : WrapCfg) (b : Bool) (st : Store)
    (h : storeGet st (cacheKey cfg) = Option.none) :
    resolveCachedValue cfg b st = .ok PyVal.none := by
  unfold resolveCachedValue loadCachedResponse
  cases b <;> simp [h]

/-- With the cache key absent the polling loop always falls through to
computation. -/
theorem phase1Loop_missing (cfg : WrapCfg) (st : Store)
    (h : storeGet st (cacheKey cfg) = Option.none) :
    ∀ tr : List PollStep, ∃ hl ops stL, phase1Loop cfg st tr = .proceed hl ops stL ∧
      storeGet stL (cacheKey cfg) = Option.none ∧ (hl = false → stL = st) := by
  intro tr
  induction tr with
  | nil => exact ⟨false, [], st, rfl, h, fun _ => rfl⟩
  | cons step rest ih =>
    have hres := resolve_missing cfg step.readFault st h
    cases hlock : step.lockSet with
    | ok b =>
      cases b with
      | true =>
        refine ⟨true, [.get (cacheKey cfg), .setnx (lockKey cfg)],
          storeSet st (lockKey cfg) "1", by simp [phase1Loop, hres, hlock], ?_,
          fun hcontr => by simp at hcontr⟩
        rw [storeGet_set_other st (lockKey cfg) (cacheKey cfg) "1" (cacheKey_ne_lockKey cfg)]
        exact h
      | false =>
        rcases ih with ⟨hl, ops, stL, heq, hsg, hfalse⟩
        exact ⟨hl, [.get (cacheKey cfg), .setnx (lockKey cfg)] ++ ops, stL,
          by simp [phase1Loop, hres, hlock, heq, consOps], hsg, hfalse⟩
    | error e =>
      rcases ih with ⟨hl, ops, stL, heq, hsg, hfalse⟩
      exact ⟨hl, [.get (cacheKey cfg), .setnx (lockKey cfg)] ++ ops, stL,
        by simp [phase1Loop, hres, hlock, heq, consOps], hsg, hfalse⟩

/-- A call that finds no entry under its cache key always invokes the
wrapped function, whatever the single-flight trace does. -/
theorem computed_of_missing (cfg : WrapCfg) (st : Store)
    (h : storeGet st (cacheKey cfg) = Option.none) :
    (runWrapper cfg st).computed = true := by
  unfold runWrapper
  rw [resolve_missing cfg cfg.getFault st h]
  simp only [ne_eq, not_true_eq_false, reduceIte]
  by_cases hmw : cfg.maxWaitPos
  · simp only [hmw, if_true]
    rcases phase1Loop_missing cfg st h cfg.pollTrace with ⟨hl, ops, stL, heq, hsg, hfalse⟩
    rw [heq]
    cases hl with
    | true => simp [finishProceed]
    | false =>
      rw [hfalse rfl]
      simp [resolve_missing cfg cfg.finalReadFault st h, finishProceed]
  · simp [hmw, finishProceed]

/-- C6: when the wrapped function raises, the wrapper re-raises that
exact exception; the lock DELETE is issued precisely when this caller
acquired the lock (and, absent a store fault on the DELETE, the lock
key is then really gone); no SET is issued and the stored state at the
cache key is untouched. -/
theorem claim6_computation_failure (cfg : WrapCfg) (st : Store) (e : Exc)
    (hf : cfg.funcOutcome = .error e)
    (hc : (runWrapper cfg st).computed = true) :
    (runWrapper cfg st).result = .error e ∧
    (StoreOp.del (lockKey cfg) ∈ (runWrapper cfg st).ops ↔
      (runWrapper cfg st).haveLock = true) ∧
    storeGet (runWrapper cfg st).store (cacheKey cfg) = storeGet st (cacheKey cfg) ∧
    (∀ k x, StoreOp.set k x ∉ (runWrapper cfg st).ops) ∧
    (cfg.lockDelFault = false → (runWrapper cfg st).haveLock = true →
      storeGet (runWrapper cfg st).store (lockKey cfg) = Option.none) := by
  rcases runWrapper_cases cfg st with ⟨r, ops, heq, hns⟩ | ⟨opsPre, stL, hl, heq, hsg, hns⟩
  · rw [heq] at hc; simp at hc
  · have hphase : phase2 cfg stL hl =
        ⟨.error e, (lockRelease cfg hl stL).1, (lockRelease cfg hl stL).2⟩ := by
      simp [phase2, hf]
    rw [heq]
    refine ⟨by simp [finishProceed, hphase], ?_, ?_, ?_, ?_⟩
    · simp only [finishProceed, hphase, lockRelease_ops]
      cases hl with
      | true => simp
      | false =>
        simp
        exact hns.2 _
    · simp only [finishProceed, hphase]
      rw [lockRelease_cacheKey]
      exact hsg
    · intro k x
      simp only [finishProceed, hphase, lockRelease_ops]
      intro hmem
      rcases List.mem_append.mp hmem with hm | hm
      · exact hns.1 k x hm
      · cases hl <;> simp at hm
    · intro hdf hhl
      simp only [finishProceed] at hhl ⊢
      rw [hphase]
      simp only [hhl] at *
      simp only [lockRelease, hhl, hdf, if_false, if_true, reduceIte]
      exact storeGet_del_same stL (lockKey cfg)

/-- C8: with a configured non-positive TTL the wrapper issues no SET,
leaves the stored state at the cache key untouched, still returns the
computed result, issues the lock DELETE exactly when it held the lock
— and, the key never having been populated, a subsequent call with the
same arguments computes again. -/
theorem claim8_nonpositive_ttl (cfg : WrapCfg) (st : Store) (q : Rat) (v : PyVal)
    (hq : cfg.ttl = some q) (hq0 : q ≤ 0) (hv : cfg.funcOutcome = .ok v)
    (hc : (runWrapper cfg st).computed = true) :
    (runWrapper cfg st).result = .ok v ∧
    (∀ k x, StoreOp.set k x ∉ (runWrapper cfg st).ops) ∧
    storeGet (runWrapper cfg st).store (cacheKey cfg) = storeGet st (cacheKey cfg) ∧
    (StoreOp.del (lockKey cfg) ∈ (runWrapper cfg st).ops ↔
      (runWrapper cfg st).haveLock = true) ∧
    (storeGet st (cacheKey cfg) = Option.none →
      (runWrapper cfg (runWrapper cfg st).store).computed = true) := by
  rcases runWrapper_cases cfg st with ⟨r, ops, heq, hns⟩ | ⟨opsPre, stL, hl, heq, hsg, hns⟩
  · rw [heq] at hc; simp at hc
  · have hphase : phase2 cfg stL hl =
        ⟨.ok v, (lockRelease cfg hl stL).1, (lockRelease cfg hl stL).2⟩ := by
      simp [phase2, hv, hq, hq0]
    rw [heq]
    refine ⟨by simp [finishProceed, hphase], ?_, ?_, ?_, ?_⟩
    · intro k x
      simp only [finishProceed, hphase, lockRelease_ops]
      intro hmem
      rcases List.mem_append.mp hmem with hm | hm
      · exact hns.1 k x hm
      · cases hl <;> simp at hm
    · simp only [finishProceed, hphase]
      rw [lockRelease_cacheKey]
      exact hsg
    · simp only [finishProceed, hphase, lockRelease_ops]
      cases hl with
      | true => simp
      | false =>
        simp
        exact hns.2 _
    · intro hmiss
      apply computed_of_missing
      simp only [finishProceed, hphase]
      rw [lockRelease_cacheKey]
      rw [hsg, hmiss]

/-- C10: with no TTL configured, the entry SET carries no expiry
argument at all — every SET issued by the call is expiry-free — so the
stored entry (present under the cache key whenever the SET succeeded)
is persisted without a TTL; the computed result is returned. -/
theorem claim10_unbounded_ttl (cfg : WrapCfg) (st : Store) (v : PyVal) (b : Bytes)
    (ht : cfg.ttl = Option.none) (hv : cfg.funcOutcome = .ok v)
    (hser : cfg.serializer (wrapperPayload cfg v) = .ok (.bytesOut b))
    (hc : (runWrapper cfg st).computed = true) :
    StoreOp.set (cacheKey cfg) SetExpiry.noexp ∈ (runWrapper cfg st).ops ∧
    (∀ k x, StoreOp.set k x ∈ (runWrapper cfg st).ops → x = SetExpiry.noexp) ∧
    (cfg.setFault = false →
      storeGet (runWrapper cfg st).store (cacheKey cfg) = some b ∧
      (runWrapper cfg st).result = .ok v) := by
  rcases runWrapper_cases cfg st with ⟨r, ops, heq, hns⟩ | ⟨opsPre, stL, hl, heq, hsg, hns⟩
  · rw [heq] at hc; simp at hc
  · have hphase : phase2 cfg stL hl = storeAndRelease cfg stL hl v .noexp := by
      simp [phase2, hv, ht]
    rw [heq]
    cases hsf : cfg.setFault with
    | true =>
      have hsr : storeAndRelease cfg stL hl v .noexp =
          { result := if cfg.ignoreValidationError then .ok v else .error "redis-set-error",
            store := (lockRelease cfg hl stL).1,
            ops := .set (cacheKey cfg) .noexp :: (lockRelease cfg hl stL).2 } := by
        simp [storeAndRelease, hser, hsf]
      refine ⟨?_, ?_, ?_⟩
      · simp [finishProceed, hphase, hsr]
      · intro k x
        simp only [finishProceed, hphase, hsr, lockRelease_ops]
        intro hmem
        rcases List.mem_append.mp hmem with hm | hm
        · exact absurd hm (hns.1 k x)
        · rcases List.mem_cons.mp hm with hm2 | hm2
          · simp at hm2; exact hm2.2
          · cases hl <;> simp at hm2
      · exact fun hcontr => absurd hcontr (by simp [hsf])
    | false =>
      have hsr : storeAndRelease cfg stL hl v .noexp =
          { result := .ok v,
            store := (lockRelease cfg hl (storeSet stL (cacheKey cfg) b)).1,
            ops := .set (cacheKey cfg) .noexp ::
              (lockRelease cfg hl (storeSet stL (cacheKey cfg) b)).2 } := by
        simp [storeAndRelease, hser, hsf]
      refine ⟨?_, ?_, ?_⟩
      · simp [finishProceed, hphase, hsr]
      · intro k x
        simp only [finishProceed, hphase, hsr, lockRelease_ops]
        intro hmem
        rcases List.mem_append.mp hmem with hm | hm
        · exact absurd hm (hns.1 k x)
        · rcases List.mem_cons.mp hm with hm2 | hm2
          · simp at hm2; exact hm2.2
          · cases hl <;> simp at hm2
      · intro _
        constructor
        · simp only [finishProceed, hphase, hsr]
          rw [lockRelease_cacheKey]
          exact storeGet_set_same stL (cacheKey cfg) b
        · simp [finishProceed, hphase, hsr]

/-- A faulted GET resolves as a miss regardless of the store content. -/
theorem resolve_fault (cfg : WrapCfg) (st : Store) :
    resolveCachedValue cfg true st = .ok PyVal.none := by
  unfold resolveCachedValue loadCachedResponse
  simp

/-- Under a SET fault with `ignore_validation_error` left at its
default, the storage tail still returns the computed value and leaves
the cache key untouched. -/
theorem storeAndRelease_setFault (cfg : WrapCfg) (stL : Store) (hl : Bool)
    (v : PyVal) (exp : SetExpiry)
    (hive : cfg.ignoreValidationError = true) (hsf : cfg.setFault = true) :
    (storeAndRelease cfg stL hl v exp).result = .ok v ∧
    storeGet (storeAndRelease cfg stL hl v exp).store (cacheKey cfg) =
      storeGet stL (cacheKey cfg) := by
  unfold storeAndRelease
  cases hser : cfg.serializer (wrapperPayload cfg v) with
  | error e => exact ⟨by simp [hive], by rw [lockRelease_cacheKey]⟩
  | ok sr =>
    cases sr with
    | otherOut => exact ⟨by simp [hive], by rw [lockRelease_cacheKey]⟩
    | bytesOut b => exact ⟨by simp [hsf, hive], by simp [hsf]; rw [lockRelease_cacheKey]⟩
    | byteArrayOut b => exact ⟨by simp [hsf, hive], by simp [hsf]; rw [lockRelease_cacheKey]⟩

/-- A polling trace whose every lock attempt raises never acquires the
lock. -/
theorem phase1Loop_allErrors (cfg : WrapCfg) (st : Store)
    (h : storeGet st (cacheKey cfg) = Option.none) :
    ∀ tr : List PollStep, (∀ step ∈ tr, ∃ e, step.lockSet = .error e) →
      ∃ ops, phase1Loop cfg st tr = .proceed false ops st := by
  intro tr
  induction tr with
  | nil => exact fun _ => ⟨[], rfl⟩
  | cons step rest ih =>
    intro herr
    have hres := resolve_missing cfg step.readFault st h
    rcases herr step (by simp) with ⟨e, hlock⟩
    rcases ih (fun s hs => herr s (by simp [hs])) with ⟨ops, heq⟩
    exact ⟨[.get (cacheKey cfg), .setnx (lockKey cfg)] ++ ops,
      by simp [phase1Loop, hres, hlock, heq, consOps]⟩

/-- C7 (amended): store failures degrade rather than crash — a GET
fault recomputes, a SET fault under the default
`ignore_validation_error=True` still returns the computed value with
the stored state untouched, lock-DELETE faults never affect the
result, and lock-SET faults read as lock-not-acquired (after the
deadline the caller computes without the lock). -/
theorem claim7_store_faults :
    (∀ cfg st, cfg.getFault = true → cfg.maxWaitPos = false →
      (runWrapper cfg st).computed = true) ∧
    (∀ cfg st v, cfg.ignoreValidationError = true → cfg.setFault = true →
      cfg.funcOutcome = .ok v → (runWrapper cfg st).computed = true →
      (runWrapper cfg st).result = .ok v ∧
      storeGet (runWrapper cfg st).store (cacheKey cfg) = storeGet st (cacheKey cfg)) ∧
    (∀ cfg st v b, cfg.lockDelFault = true → cfg.setFault = false →
      cfg.funcOutcome = .ok v →
      cfg.serializer (wrapperPayload cfg v) = .ok (.bytesOut b) →
      (runWrapper cfg st).computed = true →
      (runWrapper cfg st).result = .ok v) ∧
    (∀ cfg st, cfg.maxWaitPos = true → storeGet st (cacheKey cfg) = Option.none →
      (∀ step ∈ cfg.pollTrace, ∃ e, step.lockSet = .error e) →
      (runWrapper cfg st).haveLock = false ∧ (runWrapper cfg st).computed = true) := by
  refine ⟨?_, ?_, ?_, ?_⟩
  · intro cfg st hg hmw
    unfold runWrapper
    rw [hg, resolve_fault cfg st]
    simp [hmw, finishProceed]
  · intro cfg st v hive hsf hv hc
    rcases runWrapper_cases cfg st with ⟨r, ops, heq, hns⟩ | ⟨opsPre, stL, hl, heq, hsg, hns⟩
    · rw [heq] at hc; simp at hc
    · rw [heq]
      unfold finishProceed
      unfold phase2
      rw [hv]
      cases ht : cfg.ttl with
      | none =>
        have hsr := storeAndRelease_setFault cfg stL hl v .noexp hive hsf
        exact ⟨by simp [hsr.1], by rw [hsr.2]; exact hsg⟩
      | some q =>
        by_cases hq : q ≤ 0
        · simp only [hq, if_true, reduceIte]
          exact ⟨by simp, by
            show storeGet (lockRelease cfg hl stL).1 (cacheKey cfg) = storeGet st (cacheKey cfg)
            rw [lockRelease_cacheKey]; exact hsg⟩
        · simp only [hq, if_false, reduceIte]
          have hsr := storeAndRelease_setFault cfg stL hl v (ttlExpiry q) hive hsf
          exact ⟨by simp [hsr.1], by rw [hsr.2]; exact hsg⟩
  · intro cfg st v b hld hsf hv hser hc
    rcases runWrapper_cases cfg st with ⟨r, ops, heq, hns⟩ | ⟨opsPre, stL, hl, heq, hsg, hns⟩
    · rw [heq] at hc; simp at hc
    · rw [heq]
      unfold finishProceed
      unfold phase2
      rw [hv]
      cases ht : cfg.ttl with
      | none => simp [storeAndRelease, hser, hsf]
      | some q =>
        by_cases hq : q ≤ 0
        · simp [hq]
        · simp [hq, storeAndRelease, hser, hsf]
  · intro cfg st hmw hmiss herr
    unfold runWrapper
    rw [resolve_missing cfg cfg.getFault st hmiss]
    simp only [ne_eq, not_true_eq_false, reduceIte, hmw, if_true]
    rcases phase1Loop_allErrors cfg st hmiss cfg.pollTrace herr with ⟨ops, heq⟩
    rw [heq]
    simp [resolve_missing cfg cfg.finalReadFault st hmiss, finishProceed]

/-- The configured freshness predicate accepts the entry (or none is
configured), applied to the original unfiltered call arguments. -/
def validatorOk (cfg : WrapCfg) (entry : PyVal) : Prop :=
  match cfg.validationFunc with
  | Option.none => True
  | some vf => vf cfg.args cfg.kwargs entry = .ok true

/-- C3 (amended): when the GET succeeds, the payload deserializes to a
mapping containing a `value` field, the validator (if any) accepts it
given the original unfiltered arguments, and the stored value is not
`None`, the call returns the stored value at once: the wrapped
function is not invoked, the store is untouched, and the only
operation issued is the single GET. -/
theorem claim3_fast_path (cfg : WrapCfg) (st : Store) (raw : Bytes) (entry : PyVal)
    (hgf : cfg.getFault = false)
    (hread : storeGet st (cacheKey cfg) = some raw)
    (hdes : cfg.deserializer raw = .ok entry)
    (hdict : entry.isDictInstance = true)
    (hkey : dictHasKey entry (.str "value") = true)
    (hval : validatorOk cfg entry)
    (hnn : dictGet entry (.str "value") ≠ PyVal.none) :
    (runWrapper cfg st).result = .ok (dictGet entry (.str "value")) ∧
    (runWrapper cfg st).computed = false ∧
    (runWrapper cfg st).store = st ∧
    (runWrapper cfg st).ops = [StoreOp.get (cacheKey cfg)] := by
  have hres : resolveCachedValue cfg cfg.getFault st =
      .ok (dictGet entry (.str "value")) := by
    unfold resolveCachedValue loadCachedResponse
    rw [hgf]
    simp only [if_false, reduceIte, hread, hdes, hdict, hkey, if_true]
    unfold validatorOk at hval
    cases hvf : cfg.validationFunc with
    | none => simp
    | some vf =>
      rw [hvf] at hval
      simp [hval]
  unfold runWrapper
  rw [hres]
  simp [hnn]

/-- The entry a poisoned-by-`None` cache round trip produces. -/
def entryNoneValue : PyVal := .dict [(.str "value", PyVal.none)]

/-- A concrete configuration whose cache hit stores the value `None`:
the fingerprint is pinned by a constant key serializer and the
deserializer returns a well-formed CacheEntry mapping whose `value`
field is `None`. -/
def cfgNoneValue : WrapCfg :=
  { pref := "rc", nspace := Option.none, ignorePositionals := [], ignoreKw := [],
    validationFunc := Option.none, ttl := Option.none,
    serializer := fun _ => .ok (.bytesOut "B2"),
    deserializer := fun _ => .ok entryNoneValue,
    keySer := fun _ _ => "FP", ignoreValidationError := true, maxWaitPos := false,
    pollTrace := [], finalReadFault := false, getFault := false, setFault := false,
    lockDelFault := false, args := [.int 1], kwargs := [],
    funcOutcome := .ok (.int 7), nowTime := 1000 }

/-- C3 counterexample: the claim as stated fails when the stored value
is `None`.  Here the GET succeeds, the payload deserializes to a
mapping with a `value` field, and no validator is configured — yet the
wrapper invokes the wrapped function (`computed = true`), returns the
fresh result instead of the stored value, and re-writes the store,
because line 160 tests the resolved value with `is not None`. -/
theorem claim3_counterexample :
    storeGet [("rc:FP", "B")] (cacheKey cfgNoneValue) = some "B" ∧
    cfgNoneValue.deserializer "B" = .ok entryNoneValue ∧
    entryNoneValue.isDictInstance = true ∧
    dictHasKey entryNoneValue (.str "value") = true ∧
    cfgNoneValue.validationFunc = Option.none ∧
    dictGet entryNoneValue (.str "value") = PyVal.none ∧
    (runWrapper cfgNoneValue [("rc:FP", "B")]).computed = true ∧
    (runWrapper cfgNoneValue [("rc:FP", "B")]).result = .ok (.int 7) := by
  exact ⟨rfl, rfl, rfl, rfl, rfl, rfl, rfl, rfl⟩

/-- A well-formed cached entry holding the value 42. -/
def entryGood : PyVal := .dict [(.str "value", .int 42)]

/-- Concrete fast-path configuration: constant fingerprint, a
deserializer producing `entryGood`, no validator. -/
def cfgFastPath : WrapCfg :=
  { pref := "rc", nspace := Option.none, ignorePositionals := [], ignoreKw := [],
    validationFunc := Option.none, ttl := Option.none,
    serializer := fun _ => .ok (.bytesOut "B2"),
    deserializer := fun _ => .ok entryGood,
    keySer := fun _ _ => "FP", ignoreValidationError := true, maxWaitPos := false,
    pollTrace := [], finalReadFault := false, getFault := false, setFault := false,
    lockDelFault := false, args := [.int 1], kwargs := [],
    funcOutcome := .ok (.int 7), nowTime := 1000 }

/-- C3 witness: on a concrete populated store the amended fast path
returns the stored 42 without invoking the function. -/
theorem claim3_witness :
    (runWrapper cfgFastPath [("rc:FP", "B")]).result = .ok (.int 42) ∧
    (runWrapper cfgFastPath [("rc:FP", "B")]).computed = false := by
  have h := claim3_fast_path cfgFastPath [("rc:FP", "B")] "B" entryGood
    rfl rfl rfl rfl rfl trivial (by decide)
  exact ⟨h.1, h.2.1⟩

/-- Configuration whose wrapped function raises `boom`. -/
def cfgFuncErr : WrapCfg :=
  { pref := "rc", nspace := Option.none, ignorePositionals := [], ignoreKw := [],
    validationFunc := Option.none, ttl := Option.none,
    serializer := fun _ => .ok (.bytesOut "B2"),
    deserializer := fun _ => .error "unpickling error",
    keySer := fun _ _ => "FP", ignoreValidationError := true, maxWaitPos := false,
    pollTrace := [], finalReadFault := false, getFault := false, setFault := false,
    lockDelFault := false, args := [.int 1], kwargs := [],
    funcOutcome := .error "boom", nowTime := 1000 }

/-- C6 witness: on an empty store the concrete failing call propagates
`boom` and issues no SET. -/
theorem claim6_witness :
    (runWrapper cfgFuncErr []).result = .error "boom" ∧
    (∀ k x, StoreOp.set k x ∉ (runWrapper cfgFuncErr []).ops) := by
  have h := claim6_computation_failure cfgFuncErr [] "boom" rfl rfl
  exact ⟨h.1, h.2.2.2.1⟩

/-- Configuration with `ttl=0`. -/
def cfgTtlZero : WrapCfg :=
  { pref := "rc", nspace := Option.none, ignorePositionals := [], ignoreKw := [],
    validationFunc := Option.none, ttl := some 0,
    serializer := fun _ => .ok (.bytesOut "B2"),
    deserializer := fun _ => .error "unpickling error",
    keySer := fun _ _ => "FP", ignoreValidationError := true, maxWaitPos := false,
    pollTrace := [], finalReadFault := false, getFault := false, setFault := false,
    lockDelFault := false, args := [.int 1], kwargs := [],
    funcOutcome := .ok (.int 5), nowTime := 1000 }

/-- C8 witness: with `ttl=0` the concrete call returns 5, writes
nothing, and running again on the resulting store recomputes. -/
theorem claim8_witness :
    (runWrapper cfgTtlZero []).result = .ok (.int 5) ∧
    (∀ k x, StoreOp.set k x ∉ (runWrapper cfgTtlZero []).ops) ∧
    (runWrapper cfgTtlZero (runWrapper cfgTtlZero []).store).computed = true := by
  have h := claim8_nonpositive_ttl cfgTtlZero [] 0 (.int 5) rfl (le_refl 0) rfl rfl
  exact ⟨h.1, h.2.1, h.2.2.2.2 rfl⟩

/-- Configuration with no TTL configured. -/
def cfgNoTtl : WrapCfg :=
  { pref := "rc", nspace := Option.none, ignorePositionals := [], ignoreKw := [],
    validationFunc := Option.none, ttl := Option.none,
    serializer := fun _ => .ok (.bytesOut "B3"),
    deserializer := fun _ => .error "unpickling error",
    keySer := fun _ _ => "FP", ignoreValidationError := true, maxWaitPos := false,
    pollTrace := [], finalReadFault := false, getFault := false, setFault := false,
    lockDelFault := false, args := [.int 1], kwargs := [],
    funcOutcome := .ok (.int 5), nowTime := 1000 }

/-- C10 witness: with no TTL the concrete call issues its SET with no
expiry argument and the entry lands in the store. -/
theorem claim10_witness :
    StoreOp.set (cacheKey cfgNoTtl) SetExpiry.noexp ∈ (runWrapper cfgNoTtl []).ops ∧
    storeGet (runWrapper cfgNoTtl []).store (cacheKey cfgNoTtl) = some "B3" ∧
    (runWrapper cfgNoTtl []).result = .ok (.int 5) := by
  have h := claim10_unbounded_ttl cfgNoTtl [] (.int 5) "B3" rfl rfl rfl rfl
  exact ⟨h.1, (h.2.2 rfl).1, (h.2.2 rfl).2⟩

/-- GET-fault configuration over a store that does contain a valid
entry under the call key. -/
def cfgGetFault : WrapCfg :=
  { pref := "rc", nspace := Option.none, ignorePositionals := [], ignoreKw := [],
    validationFunc := Option.none, ttl := Option.none,
    serializer := fun _ => .ok (.bytesOut "B2"),
    deserializer := fun _ => .ok entryGood,
    keySer := fun _ _ => "FP", ignoreValidationError := true, maxWaitPos := false,
    pollTrace := [], finalReadFault := false, getFault := true, setFault := false,
    lockDelFault := false, args := [.int 1], kwargs := [],
    funcOutcome := .ok (.int 5), nowTime := 1000 }

/-- SET-fault configuration (default `ignore_validation_error`). -/
def cfgSetFault : WrapCfg :=
  { pref := "rc", nspace := Option.none, ignorePositionals := [], ignoreKw := [],
    validationFunc := Option.none, ttl := Option.none,
    serializer := fun _ => .ok (.bytesOut "B2"),
    deserializer := fun _ => .error "unpickling error",
    keySer := fun _ _ => "FP", ignoreValidationError := true, maxWaitPos := false,
    pollTrace := [], finalReadFault := false, getFault := false, setFault := true,
    lockDelFault := false, args := [.int 1], kwargs := [],
    funcOutcome := .ok (.int 5), nowTime := 1000 }

/-- Lock-DELETE-fault configuration that really acquires the lock. -/
def cfgDelFault : WrapCfg :=
  { pref := "rc", nspace := Option.none, ignorePositionals := [], ignoreKw := [],
    validationFunc := Option.none, ttl := Option.none,
    serializer := fun _ => .ok (.bytesOut "B2"),
    deserializer := fun _ => .error "unpickling error",
    keySer := fun _ _ => "FP", ignoreValidationError := true, maxWaitPos := true,
    pollTrace := [⟨false, .ok true⟩], finalReadFault := false, getFault := false,
    setFault := false, lockDelFault := true, args := [.int 1], kwargs := [],
    funcOutcome := .ok (.int 9), nowTime := 1000 }

/-- Configuration whose every lock attempt raises. -/
def cfgLockErr : WrapCfg :=
  { pref := "rc", nspace := Option.none, ignorePositionals := [], ignoreKw := [],
    validationFunc := Option.none, ttl := Option.none,
    serializer := fun _ => .ok (.bytesOut "B2"),
    deserializer := fun _ => .error "unpickling error",
    keySer := fun _ _ => "FP", ignoreValidationError := true, maxWaitPos := true,
    pollTrace := [⟨false, .error "conn"⟩], finalReadFault := false, getFault := false,
    setFault := false, lockDelFault := false, args := [.int 1], kwargs := [],
    funcOutcome := .ok (.int 5), nowTime := 1000 }

/-- C7 witness: the four degradation modes at concrete inputs — a GET
fault recomputes over a populated store, a SET fault still returns 5,
a lock-DELETE fault still returns 9, and all-raising lock attempts end
without the lock yet still compute. -/
theorem claim7_witness :
    (runWrapper cfgGetFault [("rc:FP", "B")]).computed = true ∧
    (runWrapper cfgSetFault []).result = .ok (.int 5) ∧
    (runWrapper cfgDelFault []).result = .ok (.int 9) ∧
    ((runWrapper cfgLockErr []).haveLock = false ∧
      (runWrapper cfgLockErr []).computed = true) := by
  refine ⟨claim7_store_faults.1 cfgGetFault [("rc:FP", "B")] rfl rfl,
    (claim7_store_faults.2.1 cfgSetFault [] (.int 5) rfl rfl rfl rfl).1,
    claim7_store_faults.2.2.1 cfgDelFault [] (.int 9) "B2" rfl rfl rfl rfl rfl,
    claim7_store_faults.2.2.2 cfgLockErr [] rfl rfl ?_⟩
  intro step hs
  simp [cfgLockErr] at hs
  subst hs
  exact ⟨"conn", rfl⟩

/-- Strict-mode SET-fault configuration (`ignore_validation_error`
false). -/
def cfgSetFaultStrict : WrapCfg :=
  { pref := "rc", nspace := Option.none, ignorePositionals := [], ignoreKw := [],
    validationFunc := Option.none, ttl := Option.none,
    serializer := fun _ => .ok (.bytesOut "B2"),
    deserializer := fun _ => .error "unpickling error",
    keySer := fun _ _ => "FP", ignoreValidationError := false, maxWaitPos := false,
    pollTrace := [], finalReadFault := false, getFault := false, setFault := true,
    lockDelFault := false, args := [.int 1], kwargs := [],
    funcOutcome := .ok (.int 5), nowTime := 1000 }

/-- C7 counterexample: the unconditional claim is false — with
`ignore_validation_error=False` (lines 230-232) a failing entry SET
propagates to the caller instead of being swallowed, even though the
wrapped function already computed 5 successfully. -/
theorem claim7_counterexample :
    cfgSetFaultStrict.funcOutcome = .ok (.int 5) ∧
    (runWrapper cfgSetFaultStrict []).result = .error "redis-set-error" := by
  exact ⟨rfl, rfl⟩

/-- C2 (the code evaluated at the failing input): when no namespace is
passed, lines 113-117 produce a key with NO namespace segment at all —
prefix and fingerprint only, independent of the wrapped function
identity — whereas the repository test
`test_cache_defaults_namespace_to_module_and_qualname` expects the
segment `module.qualname`; a caller-passed namespace is inserted as
expected. -/
theorem claim2_namespace_default_bug :
    cacheKeyString "tcache" Option.none "H" = "tcache:H" ∧
    cacheKeyString "tcache" (some "custom") "H" = "tcache:custom:H" ∧
    cacheKeyString "tcache" Option.none "H" ≠
      "tcache:tests.test_cache_decorator.sample:H" := by
  refine ⟨rfl, rfl, by decide⟩

/-- Two values that differ only in the insertion order of entries
inside plain (non-`OrderedDict`) mappings, at any depth.  The `dict`
case additionally requires the sort keys `genKey` of its keys to be
distinct, which holds for every genuine Python dict whose keys have
distinct textual sort keys (keys of one dict are always distinct
values, and `genKey` separates them by type name and text). -/
inductive DictPerm : PyVal → PyVal → Prop where
  | none : DictPerm .none .none
  | bool (b : Bool) : DictPerm (.bool b) (.bool b)
  | int (n : Int) : DictPerm (.int n) (.int n)
  | float (q : Rat) : DictPerm (.float q) (.float q)
  | str (s : String) : DictPerm (.str s) (.str s)
  | list {xs ys : List PyVal} (hlen : xs.length = ys.length)
      (h : ∀ p ∈ List.zip xs ys, DictPerm p.1 p.2) :
      DictPerm (.list xs) (.list ys)
  | tuple {xs ys : List PyVal} (hlen : xs.length = ys.length)
      (h : ∀ p ∈ List.zip xs ys, DictPerm p.1 p.2) :
      DictPerm (.tuple xs) (.tuple ys)
  | dict {l m m2 : List (PyVal × PyVal)} (hlen : l.length = m.length)
      (hk : ∀ p ∈ List.zip l m, p.1.1 = p.2.1)
      (h : ∀ p ∈ List.zip l m, DictPerm p.1.2 p.2.2)
      (hperm : List.Perm m m2)
      (hnd : (l.map (fun p => genKey p.1)).Nodup) :
      DictPerm (.dict l) (.dict m2)
  | odict {l m : List (PyVal × PyVal)} (hlen : l.length = m.length)
      (hk : ∀ p ∈ List.zip l m, p.1.1 = p.2.1)
      (h : ∀ p ∈ List.zip l m, DictPerm p.1.2 p.2.2) :
      DictPerm (.odict l) (.odict m)

/-- `genKey` separates the string keys of a keyword mapping: the map
`s : String => genKey (.str s)` is injective (the type-name prefix has
fixed length and the payload is `s` itself). -/
theorem genKey_str_inj (s t : String) (h : genKey (.str s) = genKey (.str t)) :
    s = t := by
  unfold genKey pyTypeName pyStr at h
  simp only [] at h
  have hd := congrArg String.data h
  simp only [String.data_append] at hd
  exact String.ext (List.append_cancel_left hd)

attribute [irreducible] genKey pyTypeName

/-- Two sorted lists that are permutations of each other and whose
sort keys are pairwise distinct are equal. -/
theorem sorted_perm_nodup_eq {α : Type _} (f : α → String) (r : α → α → Prop)
    (hr : ∀ a b, r a b ↔ f a ≤ f b) :
    ∀ l1 l2 : List α, l1.Perm l2 →
      l1.Sorted r → l2.Sorted r →
      (l1.map f).Nodup → l1 = l2 := by
  intro l1
  induction l1 with
  | nil => intro l2 hp _ _ _; exact hp.nil_eq
  | cons a l1 ih =>
    intro l2 hp hs1 hs2 hnd
    cases l2 with
    | nil => exact absurd hp.eq_nil (List.cons_ne_nil a l1)
    | cons b l2 =>
      obtain ⟨ha1, hsl1⟩ := List.sorted_cons.mp hs1
      obtain ⟨hb1, hsl2⟩ := List.sorted_cons.mp hs2
      have hamem : a ∈ b :: l2 := hp.mem_iff.mp (by simp)
      have hbmem : b ∈ a :: l1 := hp.mem_iff.mpr (by simp)
      have hab : a = b := by
        rcases List.mem_cons.mp hbmem with hba | hbl
        · exact hba.symm
        · rcases List.mem_cons.mp hamem with hba2 | hal
          · exact hba2
          · have h1 : f a ≤ f b := (hr a b).mp (ha1 b hbl)
            have h2 : f b ≤ f a := (hr b a).mp (hb1 a hal)
            have hfeq : f a = f b := le_antisymm h1 h2
            have : f b ∈ l1.map f := List.mem_map_of_mem f hbl
            rw [← hfeq] at this
            exact absurd this ((List.nodup_cons.mp hnd).1)
      subst hab
      have htail : l1.Perm l2 := hp.cons_inv
      have := ih l2 htail hsl1 hsl2 (List.nodup_cons.mp hnd).2
      rw [this]

theorem sortDictsList_eq_map (xs : List PyVal) :
    sortDictsList xs = xs.map sortDicts := by
  induction xs with
  | nil => simp [sortDictsList]
  | cons x xs ih => simp [sortDictsList, ih]

theorem sortDictsVals_eq_map (l : List (PyVal × PyVal)) :
    sortDictsVals l = l.map (fun p => (p.1, sortDicts p.2)) := by
  induction l with
  | nil => simp [sortDictsVals]
  | cons p l ih => simp [sortDictsVals, ih]

theorem map_sortDicts_eq : ∀ xs ys : List PyVal, xs.length = ys.length →
    (∀ p ∈ List.zip xs ys, sortDicts p.1 = sortDicts p.2) →
    xs.map sortDicts = ys.map sortDicts := by
  intro xs
  induction xs with
  | nil => intro ys hlen _; cases ys with
    | nil => rfl
    | cons y ys => simp at hlen
  | cons x xs ih =>
    intro ys hlen hp
    cases ys with
    | nil => simp at hlen
    | cons y ys =>
      have h1 := hp (x, y) (by simp)
      have h2 := ih ys (by simpa using hlen) (fun q hq => hp q (by simp [hq]))
      simp [h1, h2]

theorem map_entry_eq : ∀ l m : List (PyVal × PyVal), l.length = m.length →
    (∀ p ∈ List.zip l m, p.1.1 = p.2.1) →
    (∀ p ∈ List.zip l m, sortDicts p.1.2 = sortDicts p.2.2) →
    l.map (fun p => (p.1, sortDicts p.2)) = m.map (fun p => (p.1, sortDicts p.2)) := by
  intro l
  induction l with
  | nil => intro m hlen _ _; cases m with
    | nil => rfl
    | cons q m => simp at hlen
  | cons p l ih =>
    intro m hlen hk hv
    cases m with
    | nil => simp at hlen
    | cons q m =>
      have h1 := hk (p, q) (by simp)
      have h2 := hv (p, q) (by simp)
      have h3 := ih m (by simpa using hlen)
        (fun r hr => hk r (by simp [hr])) (fun r hr => hv r (by simp [hr]))
      simp only [] at h1 h2
      simp [h1, h2, h3]

/-- Stably re-sorting two permuted entry lists with pairwise-distinct
key sort keys yields the same list. -/
theorem sortedByKeys_eq_of_perm (A B : List (PyVal × PyVal)) (hper : A.Perm B)
    (hnd : (A.map (fun p => genKey p.1)).Nodup) :
    sortedByKeys A = sortedByKeys B := by
  have hpermI : (List.insertionSort entryLe A).Perm (List.insertionSort entryLe B) :=
    (List.perm_insertionSort entryLe A).trans
      (hper.trans (List.perm_insertionSort entryLe B).symm)
  have hsA : (List.insertionSort entryLe A).Sorted entryLe :=
    List.sorted_insertionSort entryLe A
  have hsB : (List.insertionSort entryLe B).Sorted entryLe :=
    List.sorted_insertionSort entryLe B
  have hpm : ((List.insertionSort entryLe A).map (fun p => genKey p.1)).Perm
      (A.map (fun p => genKey p.1)) :=
    (List.perm_insertionSort entryLe A).map (fun p => genKey p.1)
  have hndI : ((List.insertionSort entryLe A).map (fun p => genKey p.1)).Nodup :=
    hpm.nodup_iff.mpr hnd
  unfold sortedByKeys
  exact sorted_perm_nodup_eq (fun p => genKey p.1) entryLe
    (fun a b => show entryLe a b ↔ genKey a.1 ≤ genKey b.1 from Iff.rfl)
    _ _ hpermI hsA hsB hndI

/-- Normalisation is invariant under re-ordering of plain-dict entries
at any depth: `_sort_dicts` sends `DictPerm`-related values to the
same normal form. -/
theorem sortDicts_eq_of_dictPerm {a b : PyVal} (h : DictPerm a b) :
    sortDicts a = sortDicts b := by
  induction h with
  | none => rfl
  | bool b => rfl
  | int n => rfl
  | float q => rfl
  | str s => rfl
  | list hlen hrel ih =>
    simp only [sortDicts, sortDictsList_eq_map]
    exact congrArg PyVal.list (map_sortDicts_eq _ _ hlen ih)
  | tuple hlen hrel ih =>
    simp only [sortDicts, sortDictsList_eq_map]
    exact congrArg PyVal.tuple (map_sortDicts_eq _ _ hlen ih)
  | dict hlen hk hrel hperm hnd ih =>
    rename_i l m m2
    simp only [sortDicts, sortDictsVals_eq_map]
    apply congrArg PyVal.dict
    have h1 : l.map (fun p => (p.1, sortDicts p.2)) =
        m.map (fun p => (p.1, sortDicts p.2)) := map_entry_eq l m hlen hk ih
    have h2 : (l.map (fun p => (p.1, sortDicts p.2))).Perm
        (m2.map (fun p => (p.1, sortDicts p.2))) := by
      rw [h1]; exact hperm.map _
    have h3 : ((l.map (fun p => (p.1, sortDicts p.2))).map
        (fun p => genKey p.1)).Nodup := by
      rw [List.map_map]
      exact hnd
    exact sortedByKeys_eq_of_perm _ _ h2 h3
  | odict hlen hk hrel ih =>
    simp only [sortDicts, sortDictsVals_eq_map]
    exact congrArg PyVal.odict (map_entry_eq _ _ hlen hk ih)

theorem map_kwentry_eq : ∀ l m : List (String × PyVal), l.length = m.length →
    (∀ p ∈ List.zip l m, p.1.1 = p.2.1) →
    (∀ p ∈ List.zip l m, sortDicts p.1.2 = sortDicts p.2.2) →
    l.map (fun p => (p.1, sortDicts p.2)) = m.map (fun p => (p.1, sortDicts p.2)) := by
  intro l
  induction l with
  | nil => intro m hlen _ _; cases m with
    | nil => rfl
    | cons q m => simp at hlen
  | cons p l ih =>
    intro m hlen hk hv
    cases m with
    | nil => simp at hlen
    | cons q m =>
      have h1 := hk (p, q) (by simp)
      have h2 := hv (p, q) (by simp)
      have h3 := ih m (by simpa using hlen)
        (fun r hr => hk r (by simp [hr])) (fun r hr => hv r (by simp [hr]))
      simp only [] at h1 h2
      simp [h1, h2, h3]

/-- Distinct string keys give distinct `genKey` sort keys. -/
theorem nodup_genKey_str (ss : List String) (hnd : ss.Nodup) :
    (ss.map (fun s => genKey (.str s))).Nodup :=
  hnd.map (fun s t h => genKey_str_inj s t h)

/-- Entry lists whose keys are the given distinct strings have
pairwise-distinct `genKey` sort keys. -/
theorem nodup_genKey_of_str_keys (l : List (PyVal × PyVal)) (ss : List String)
    (h : l.map Prod.fst = ss.map PyVal.str) (hnd : ss.Nodup) :
    (l.map (fun p => genKey p.1)).Nodup := by
  have h2 : l.map (fun p => genKey p.1) = ss.map (fun s => genKey (.str s)) := by
    have h3 : (l.map Prod.fst).map genKey = (ss.map PyVal.str).map genKey := by rw [h]
    simpa [List.map_map, Function.comp] using h3
  rw [h2]
  exact nodup_genKey_str ss hnd

/-- The keyword analogue of `sortedByKeys_eq_of_perm`, for the whole
`sorted_dicts` pipeline: the final normalised keyword mapping is
invariant under re-ordering (and value normalisation-equality). -/
theorem sortedDictsKw_eq_of_perm (k m k2 : List (String × PyVal))
    (hlen : k.length = m.length)
    (hk : ∀ p ∈ List.zip k m, p.1.1 = p.2.1)
    (hv : ∀ p ∈ List.zip k m, sortDicts p.1.2 = sortDicts p.2.2)
    (hperm : m.Perm k2)
    (hnd : (k.map Prod.fst).Nodup) :
    sortedDictsKw k = sortedDictsKw k2 := by
  have hF : k.map (fun p => (p.1, sortDicts p.2)) = m.map (fun p => (p.1, sortDicts p.2)) :=
    map_kwentry_eq k m hlen hk hv
  have hpermA : (sortedDictsKw k).Perm (sortedDictsKw k2) := by
    unfold sortedDictsKw
    refine ((List.perm_insertionSort kwLe k).map _).trans ?_
    rw [hF]
    exact (hperm.map _).trans ((List.perm_insertionSort kwLe k2).map _).symm
  have hsorted : ∀ l : List (String × PyVal), (sortedDictsKw l).Sorted
      (fun p q => genKey (.str p.1) ≤ genKey (.str q.1)) := by
    intro l
    unfold sortedDictsKw
    rw [List.Sorted, List.pairwise_map]
    exact List.sorted_insertionSort kwLe l
  have hndg : (k.map (fun p => genKey (.str p.1))).Nodup := by
    have h3 : k.map (fun p => genKey (.str p.1)) =
        (k.map Prod.fst).map (fun s => genKey (.str s)) := by
      simp [List.map_map, Function.comp]
    rw [h3]
    exact nodup_genKey_str _ hnd
  have hndA : ((sortedDictsKw k).map (fun p => genKey (.str p.1))).Nodup := by
    have h4 : (sortedDictsKw k).map (fun p => genKey (.str p.1)) =
        (List.insertionSort kwLe k).map (fun p => genKey (.str p.1)) := by
      unfold sortedDictsKw
      simp [List.map_map, Function.comp]
    rw [h4]
    exact (((List.perm_insertionSort kwLe k).map
      (fun p => genKey (.str p.1))).nodup_iff).mpr hndg
  exact sorted_perm_nodup_eq (fun p => genKey (.str p.1))
    (fun p q => genKey (.str p.1) ≤ genKey (.str q.1))
    (fun a b => Iff.rfl) _ _ hpermA (hsorted k) (hsorted k2) hndA

/-- The positional tuples differ only by reordering inside nested
plain mappings: pointwise `DictPerm`, never reordering the tuple. -/
def ArgsPerm (a b : List PyVal) : Prop :=
  a.length = b.length ∧ ∀ p ∈ List.zip a b, DictPerm p.1 p.2

/-- The keyword mappings differ only by insertion order (top level and
inside nested plain mappings): pointwise key-equal and value
`DictPerm` up to a permutation, with distinct keyword names. -/
def KwPerm (k k2 : List (String × PyVal)) : Prop :=
  ∃ m, k.length = m.length ∧ (∀ p ∈ List.zip k m, p.1.1 = p.2.1) ∧
    (∀ p ∈ List.zip k m, DictPerm p.1.2 p.2.2) ∧ m.Perm k2 ∧
    (k.map Prod.fst).Nodup

/-- C4: key derivation is deterministic (`hash_key` is a pure function
of its arguments, the deep copies in the source preventing any
mutation of caller data), and is invariant under re-ordering of the
insertion order of any nested non-`OrderedDict` mapping at any depth,
in both the positional tuple and the keyword mapping. -/
theorem claim4_key_order_independence :
    (∀ args kw, hash_key args kw = hash_key args kw) ∧
    (∀ args args2 kw kw2, ArgsPerm args args2 → KwPerm kw kw2 →
      hash_key args kw = hash_key args2 kw2) := by
  refine ⟨fun _ _ => rfl, ?_⟩
  rintro a a2 k k2 ⟨hlen, hrel⟩ ⟨m, hklen, hkk, hkv, hkperm, hknd⟩
  unfold hash_key canonicalKeyString
  have hargs : sortedDictsArgs a = sortedDictsArgs a2 := by
    unfold sortedDictsArgs
    rw [sortDictsList_eq_map, sortDictsList_eq_map]
    exact map_sortDicts_eq a a2 hlen (fun p hp => sortDicts_eq_of_dictPerm (hrel p hp))
  have hkw : sortedDictsKw k = sortedDictsKw k2 :=
    sortedDictsKw_eq_of_perm k m k2 hklen hkk
      (fun p hp => sortDicts_eq_of_dictPerm (hkv p hp)) hkperm hknd
  rw [hargs, hkw]

def wDictA : PyVal := .dict [(.str "b", .int 1), (.str "a", .int 2)]

def wDictA2 : PyVal := .dict [(.str "a", .int 2), (.str "b", .int 1)]

def wDictN : PyVal := .dict [(.str "y", .int 2), (.str "x", .int 3)]

def wDictN2 : PyVal := .dict [(.str "x", .int 3), (.str "y", .int 2)]

/-- The two nested mappings are insertion-order permutations. -/
theorem wDictN_perm : DictPerm wDictN wDictN2 := by
  unfold wDictN wDictN2
  refine DictPerm.dict rfl (by decide) ?_ (List.Perm.swap _ _ _) ?_
  · intro p hp
    simp [List.zip] at hp
    rcases hp with h | h <;> subst h
    · exact DictPerm.int 2
    · exact DictPerm.int 3
  · exact nodup_genKey_of_str_keys _ ["y", "x"] rfl (by decide)

/-- The two positional mappings are insertion-order permutations. -/
theorem wDictA_perm : DictPerm wDictA wDictA2 := by
  unfold wDictA wDictA2
  refine DictPerm.dict rfl (by decide) ?_ (List.Perm.swap _ _ _) ?_
  · intro p hp
    simp [List.zip] at hp
    rcases hp with h | h <;> subst h
    · exact DictPerm.int 1
    · exact DictPerm.int 2
  · exact nodup_genKey_of_str_keys _ ["b", "a"] rfl (by decide)

/-- C4 witness: a concrete pair of calls that differ only in the
insertion order of a top-level positional dict, the keyword mapping
itself, and a dict nested inside a keyword value, receive the same
fingerprint. -/
theorem claim4_witness :
    hash_key [wDictA] [("n", wDictN), ("m", .int 1)] =
    hash_key [wDictA2] [("m", .int 1), ("n", wDictN2)] := by
  apply claim4_key_order_independence.2
  · refine ⟨rfl, ?_⟩
    intro p hp
    simp [List.zip] at hp
    subst hp
    exact wDictA_perm
  · refine ⟨[("n", wDictN2), ("m", .int 1)], rfl, by decide, ?_,
      List.Perm.swap _ _ _, by decide⟩
    intro p hp
    simp [List.zip] at hp
    rcases hp with h | h <;> subst h
    · exact wDictN_perm
    · exact DictPerm.int 1

/-- Strings with equal character data are equal. -/
theorem stringDataExt (s t : String) (h : s.data = t.data) : s = t := by
  cases s; cases t
  exact congrArg String.mk h

theorem digitChar10_toNat (d : Nat) (h : d < 10) : (digitChar10 d).toNat = 48 + d := by
  interval_cases d <;> rfl

/-- Value of a most-significant-first digit string. -/
def digitsVal (l : List Char) : Nat :=
  l.foldl (fun acc c => 10 * acc + (c.toNat - 48)) 0

theorem digitsVal_append_digit (a : List Char) (c : Char) :
    digitsVal (a ++ [c]) = 10 * digitsVal a + (c.toNat - 48) := by
  simp [digitsVal, List.foldl_append]

/-- Printing then parsing a natural number is the identity. -/
theorem digitsVal_natDecimal : ∀ n, digitsVal (natDecimal n) = n := by
  intro n
  induction n using Nat.strong_induction_on with
  | _ n ih =>
    unfold natDecimal
    by_cases h : n < 10
    · simp [h, digitsVal, digitChar10_toNat n h]
    · have hdiv : n / 10 < n := Nat.div_lt_self (by omega) (by omega)
      simp only [h, dif_neg, not_false_iff]
      rw [digitsVal_append_digit, ih (n / 10) hdiv,
        digitChar10_toNat (n % 10) (Nat.mod_lt n (by omega))]
      omega

theorem natDecimal_inj (a b : Nat) (h : natDecimal a = natDecimal b) : a = b := by
  have := congrArg digitsVal h
  rwa [digitsVal_natDecimal, digitsVal_natDecimal] at this

/-- Every character of a printed natural number is a decimal digit. -/
theorem natDecimal_digits : ∀ n, ∀ c ∈ natDecimal n, 48 ≤ c.toNat ∧ c.toNat ≤ 57 := by
  intro n
  induction n using Nat.strong_induction_on with
  | _ n ih =>
    intro c hc
    unfold natDecimal at hc
    by_cases h : n < 10
    · simp [h] at hc
      rw [hc, digitChar10_toNat n h]
      omega
    · have hdiv : n / 10 < n := Nat.div_lt_self (by omega) (by omega)
      simp only [h, dif_neg, not_false_iff] at hc
      rcases List.mem_append.mp hc with hm | hm
      · exact ih (n / 10) hdiv c hm
      · simp at hm
        rw [hm, digitChar10_toNat (n % 10) (Nat.mod_lt n (by omega))]
        omega

theorem natDecimal_ne_nil (n : Nat) : natDecimal n ≠ [] := by
  unfold natDecimal
  by_cases h : n < 10 <;> simp [h]

theorem intDecimal_inj (a b : Int) (h : intDecimal a = intDecimal b) : a = b := by
  unfold intDecimal at h
  by_cases ha : a < 0 <;> by_cases hb : b < 0
  · simp only [ha, hb, if_true, reduceIte] at h
    have := natDecimal_inj _ _ (List.tail_eq_of_cons_eq h)
    omega
  · simp only [ha, hb, if_true, if_false, reduceIte] at h
    rcases hx : natDecimal b.toNat with _ | ⟨c, rest⟩
    · exact absurd hx (natDecimal_ne_nil _)
    · rw [hx] at h
      have hc : c ∈ natDecimal b.toNat := by rw [hx]; simp
      have hd := natDecimal_digits _ c hc
      have hhead : Char.ofNat 45 = c := List.head_eq_of_cons_eq h
      have : (Char.ofNat 45).toNat = 45 := rfl
      rw [← hhead] at hd
      omega
  · simp only [ha, hb, if_true, if_false, reduceIte] at h
    rcases hx : natDecimal a.toNat with _ | ⟨c, rest⟩
    · exact absurd hx (natDecimal_ne_nil _)
    · rw [hx] at h
      have hc : c ∈ natDecimal a.toNat := by rw [hx]; simp
      have hd := natDecimal_digits _ c hc
      have hhead : c = Char.ofNat 45 := List.head_eq_of_cons_eq h
      have : (Char.ofNat 45).toNat = 45 := rfl
      rw [hhead] at hd
      omega
  · simp only [ha, hb, if_false, reduceIte] at h
    have := natDecimal_inj _ _ h
    omega

/-- Characters of a printed integer: a minus sign or decimal digits —
never a comma, a quote, or a bracket. -/
theorem intDecimal_chars (n : Int) :
    ∀ c ∈ intDecimal n, c.toNat = 45 ∨ (48 ≤ c.toNat ∧ c.toNat ≤ 57) := by
  intro c hc
  unfold intDecimal at hc
  by_cases h : n < 0
  · simp only [h, if_true, reduceIte] at hc
    rcases List.mem_cons.mp hc with hm | hm
    · left; rw [hm]; rfl
    · right; exact natDecimal_digits _ c hm
  · simp only [h, if_false, reduceIte] at hc
    right; exact natDecimal_digits _ c hc

theorem intDecimal_ne_nil (n : Int) : intDecimal n ≠ [] := by
  unfold intDecimal
  by_cases h : n < 0
  · simp [h]
  · simp [h, natDecimal_ne_nil]

/-- Atoms whose printed form is unambiguous inside a comma-separated
sequence: integers, and strings free of commas and of both quote
characters (for which the modelled `repr` quoting is exact). -/
def safeAtom : PyVal → Bool
  | .int _ => true
  | .str s => !(s.data.contains (Char.ofNat 44)) && !(s.data.contains squot) &&
      !(s.data.contains dquot)
  | _ => false

theorem safeAtom_sortDicts {x : PyVal} (h : safeAtom x = true) : sortDicts x = x := by
  cases x <;> simp [safeAtom] at h <;> rfl

theorem pyRepr_int_data (n : Int) : (pyRepr (.int n)).data = intDecimal n := by
  simp [pyRepr]

theorem pyRepr_str_data_safe (s : String) (h : s.data.contains squot = false) :
    (pyRepr (.str s)).data = squot :: s.data ++ [squot] := by
  have h2 : squot ∉ s.data := by simpa using h
  simp [pyRepr, strQuote, h2]

/-- Printed safe atoms are never empty. -/
theorem safeAtom_repr_ne_nil {x : PyVal} (h : safeAtom x = true) :
    (pyRepr x).data ≠ [] := by
  cases x <;> simp [safeAtom] at h
  · rw [pyRepr_int_data]; exact intDecimal_ne_nil _
  · rename_i s
    rw [pyRepr_str_data_safe s (by simpa using h.1.2)]
    simp

/-- Printed safe atoms never contain a comma. -/
theorem safeAtom_repr_comma_free {x : PyVal} (h : safeAtom x = true) :
    Char.ofNat 44 ∉ (pyRepr x).data := by
  cases x <;> simp [safeAtom] at h
  · rw [pyRepr_int_data]
    intro hc
    have := intDecimal_chars _ _ hc
    have h45 : (Char.ofNat 44).toNat = 44 := rfl
    omega
  · rename_i s
    rw [pyRepr_str_data_safe s (by simpa using h.1.2)]
    intro hc
    have hsq : (Char.ofNat 44) ≠ squot := by decide
    rcases List.mem_cons.mp hc with hm | hm
    · exact hsq hm
    · rcases List.mem_append.mp hm with hm2 | hm2
      · have := h.1.1
        simp [List.contains_iff_exists_mem_beq] at this
        exact absurd hm2 (by simpa using this)
      · simp at hm2
        exact hsq hm2

/-- Printing is injective on safe atoms. -/
theorem safeAtom_repr_inj {x y : PyVal} (hx : safeAtom x = true)
    (hy : safeAtom y = true) (h : pyRepr x = pyRepr y) : x = y := by
  have hd := congrArg String.data h
  cases x <;> simp [safeAtom] at hx <;> cases y <;> simp [safeAtom] at hy
  · rename_i n m
    rw [pyRepr_int_data, pyRepr_int_data] at hd
    rw [intDecimal_inj n m hd]
  · rename_i n s
    rw [pyRepr_int_data, pyRepr_str_data_safe s (by simpa using hy.1.2)] at hd
    have hq : squot ∈ intDecimal n := by rw [hd]; simp
    have := intDecimal_chars n squot hq
    have h39 : squot.toNat = 39 := rfl
    omega
  · rename_i s n
    rw [pyRepr_str_data_safe s (by simpa using hx.1.2), pyRepr_int_data] at hd
    have hq : squot ∈ intDecimal n := by rw [← hd]; simp
    have := intDecimal_chars n squot hq
    have h39 : squot.toNat = 39 := rfl
    omega
  · rename_i s t
    rw [pyRepr_str_data_safe s (by simpa using hx.1.2),
      pyRepr_str_data_safe t (by simpa using hy.1.2)] at hd
    have := List.append_cancel_right (List.tail_eq_of_cons_eq hd)
    rw [stringDataExt s t this]

/-- A comma splits unambiguously after a comma-free prefix. -/
theorem comma_prefix_cancel : ∀ a b u v : List Char,
    Char.ofNat 44 ∉ a → Char.ofNat 44 ∉ b →
    a ++ Char.ofNat 44 :: u = b ++ Char.ofNat 44 :: v → a = b ∧ u = v := by
  intro a
  induction a with
  | nil =>
    intro b u v _ hb h
    cases b with
    | nil => exact ⟨rfl, List.tail_eq_of_cons_eq h⟩
    | cons c b =>
      have hc := List.head_eq_of_cons_eq h
      exact absurd (by rw [hc]; simp : Char.ofNat 44 ∈ c :: b) hb
  | cons c a ih =>
    intro b u v ha hb h
    cases b with
    | nil =>
      have hc := List.head_eq_of_cons_eq h
      exact absurd (by rw [← hc]; simp : Char.ofNat 44 ∈ c :: a) ha
    | cons c2 b =>
      have hc := List.head_eq_of_cons_eq h
      have ht := List.tail_eq_of_cons_eq h
      have := ih b u v (fun hm => ha (by simp [hm])) (fun hm => hb (by simp [hm])) ht
      exact ⟨by rw [hc, this.1], this.2⟩

/-- The separator `, ` as character data. -/
theorem sep_data : (", " : String).data = [Char.ofNat 44, Char.ofNat 32] := by decide

/-- Joined printed forms of safe-atom sequences determine the
sequences: the body of a printed list/tuple of safe atoms is
unambiguous. -/
theorem pyReprJoin_inj_safe : ∀ xs ys : List PyVal,
    (∀ x ∈ xs, safeAtom x = true) → (∀ y ∈ ys, safeAtom y = true) →
    pyReprJoin xs = pyReprJoin ys → xs = ys := by
  intro xs
  induction xs with
  | nil =>
    intro ys _ hy h
    cases ys with
    | nil => rfl
    | cons y ys =>
      exfalso
      have hd := congrArg String.data h
      cases ys with
      | nil =>
        simp only [pyReprJoin] at hd
        exact safeAtom_repr_ne_nil (hy y (by simp)) (by simpa using hd.symm)
      | cons y2 ys2 =>
        simp only [pyReprJoin, String.data_append] at hd
        have hne := safeAtom_repr_ne_nil (hy y (by simp))
        cases hx : (pyRepr y).data with
        | nil => exact hne hx
        | cons c rest => rw [hx] at hd; simp at hd
  | cons x xs ih =>
    intro ys hx hy h
    cases ys with
    | nil =>
      exfalso
      have hd := congrArg String.data h
      cases xs with
      | nil =>
        simp only [pyReprJoin] at hd
        exact safeAtom_repr_ne_nil (hx x (by simp)) (by simpa using hd)
      | cons x2 xs2 =>
        simp only [pyReprJoin, String.data_append] at hd
        have hne := safeAtom_repr_ne_nil (hx x (by simp))
        cases hxx : (pyRepr x).data with
        | nil => exact hne hxx
        | cons c rest => rw [hxx] at hd; simp at hd
    | cons y ys =>
      cases xs with
      | nil =>
        cases ys with
        | nil =>
          simp only [pyReprJoin] at h
          rw [safeAtom_repr_inj (hx x (by simp)) (hy y (by simp)) h]
        | cons y2 ys2 =>
          exfalso
          have hd := congrArg String.data h
          simp only [pyReprJoin, String.data_append, sep_data] at hd
          have hcf := safeAtom_repr_comma_free (hx x (by simp))
          have : Char.ofNat 44 ∈ (pyRepr x).data := by
            rw [hd]; simp
          exact hcf this
      | cons x2 xs2 =>
        cases ys with
        | nil =>
          exfalso
          have hd := congrArg String.data h
          simp only [pyReprJoin, String.data_append, sep_data] at hd
          have hcf := safeAtom_repr_comma_free (hy y (by simp))
          have : Char.ofNat 44 ∈ (pyRepr y).data := by
            rw [← hd]; simp
          exact hcf this
        | cons y2 ys2 =>
          have hd := congrArg String.data h
          simp only [pyReprJoin, String.data_append, sep_data] at hd
          rw [List.append_assoc, List.append_assoc] at hd
          have hsplit := comma_prefix_cancel _ _ _ _
            (safeAtom_repr_comma_free (hx x (by simp)))
            (safeAtom_repr_comma_free (hy y (by simp)))
            (by simpa using hd)
          have he1 : x = y := safeAtom_repr_inj (hx x (by simp)) (hy y (by simp))
            (stringDataExt _ _ hsplit.1)
          have he2 : pyReprJoin (x2 :: xs2) = pyReprJoin (y2 :: ys2) :=
            stringDataExt _ _ (List.tail_eq_of_cons_eq hsplit.2)
          have := ih (y2 :: ys2) (fun z hz => hx z (by simp at hz; rcases hz with h1 | h1 <;> simp [h1]))
            (fun z hz => hy z (by simp at hz; rcases hz with h1 | h1 <;> simp [h1])) he2
          rw [he1, this]

/-- Changing one element of a comma-joined body to one with a
different printed form changes the body. -/
theorem pyReprJoin_ne_middle : ∀ (as : List PyVal) (x y : PyVal) (bs : List PyVal),
    pyRepr x ≠ pyRepr y → pyReprJoin (as ++ x :: bs) ≠ pyReprJoin (as ++ y :: bs) := by
  intro as
  induction as with
  | nil =>
    intro x y bs hne
    cases bs with
    | nil => simpa [pyReprJoin] using hne
    | cons b bs2 =>
      intro h
      have hd := congrArg String.data h
      simp only [List.nil_append, pyReprJoin, String.data_append] at hd
      exact hne (stringDataExt _ _
        (List.append_cancel_right (List.append_cancel_right hd)))
  | cons a as2 ih =>
    intro x y bs hne
    obtain ⟨hh, tt, heq⟩ : ∃ hh tt, as2 ++ x :: bs = hh :: tt := by
      cases as2 <;> exact ⟨_, _, rfl⟩
    obtain ⟨hh2, tt2, heq2⟩ : ∃ hh2 tt2, as2 ++ y :: bs = hh2 :: tt2 := by
      cases as2 <;> exact ⟨_, _, rfl⟩
    intro h
    rw [show a :: as2 ++ x :: bs = a :: (as2 ++ x :: bs) from rfl,
      show a :: as2 ++ y :: bs = a :: (as2 ++ y :: bs) from rfl, heq, heq2] at h
    simp only [pyReprJoin] at h
    have hd := congrArg String.data h
    simp only [String.data_append] at hd
    have htails := stringDataExt _ _ (List.append_cancel_left hd)
    rw [← heq, ← heq2] at htails
    exact ih x y bs hne htails

/-- A tuple of two or more elements prints as the parenthesised body. -/
theorem pyRepr_tuple_two (L : List PyVal) (h : 2 ≤ L.length) :
    pyRepr (.tuple L) = "(" ++ pyReprJoin L ++ ")" := by
  cases L with
  | nil => simp at h
  | cons a L2 =>
    cases L2 with
    | nil => simp at h
    | cons b L3 => simp [pyRepr]

/-- Lists of safe atoms with distinct contents print differently. -/
theorem pyRepr_list_ne (xs ys : List PyVal)
    (hxs : ∀ x ∈ xs, safeAtom x = true) (hys : ∀ y ∈ ys, safeAtom y = true)
    (hne : xs ≠ ys) : pyRepr (.list xs) ≠ pyRepr (.list ys) := by
  intro h
  have hd := congrArg String.data h
  simp only [pyRepr, String.data_append] at hd
  simp at hd
  exact hne (pyReprJoin_inj_safe xs ys hxs hys (stringDataExt _ _ hd))

/-- Tuples of safe atoms of equal length with distinct contents print
differently. -/
theorem pyRepr_tuple_ne (xs ys : List PyVal)
    (hxs : ∀ x ∈ xs, safeAtom x = true) (hys : ∀ y ∈ ys, safeAtom y = true)
    (hlen : xs.length = ys.length) (hne : xs ≠ ys) :
    pyRepr (.tuple xs) ≠ pyRepr (.tuple ys) := by
  cases xs with
  | nil => cases ys with
    | nil => exact absurd rfl hne
    | cons y ys2 => simp at hlen
  | cons x xs2 =>
    cases ys with
    | nil => simp at hlen
    | cons y ys2 =>
      cases xs2 with
      | nil =>
        cases ys2 with
        | cons y2 ys3 => simp at hlen
        | nil =>
          intro h
          have hd := congrArg String.data h
          simp only [pyRepr, String.data_append] at hd
          simp at hd
          have hx := stringDataExt _ _ hd
          exact hne (by rw [safeAtom_repr_inj (hxs x (by simp)) (hys y (by simp)) hx])
      | cons x2 xs3 =>
        cases ys2 with
        | nil => simp at hlen
        | cons y2 ys3 =>
          intro h
          rw [pyRepr_tuple_two _ (by simp), pyRepr_tuple_two _ (by simp)] at h
          have hd := congrArg String.data h
          simp only [String.data_append] at hd
          simp at hd
          exact hne (pyReprJoin_inj_safe _ _ hxs hys (stringDataExt _ _ hd))

/-- Safe atoms are fixed points of elementwise normalisation. -/
theorem map_sortDicts_safe (xs : List PyVal) (h : ∀ x ∈ xs, safeAtom x = true) :
    xs.map sortDicts = xs := by
  induction xs with
  | nil => rfl
  | cons x xs ih =>
    simp only [List.map_cons, safeAtom_sortDicts (h x (by simp)),
      ih (fun z hz => h z (by simp [hz]))]

/-- Exchanging one tuple element for one with a different printed form
changes the printed tuple. -/
theorem pyRepr_tuple_middle_ne (P Q : List PyVal) (a b : PyVal)
    (h : pyRepr a ≠ pyRepr b) :
    pyRepr (.tuple (P ++ a :: Q)) ≠ pyRepr (.tuple (P ++ b :: Q)) := by
  cases P with
  | nil =>
    cases Q with
    | nil =>
      intro hc
      simp only [List.nil_append, pyRepr, String.data_append] at hc
      have hd := congrArg String.data hc
      simp only [String.data_append] at hd
      simp at hd
      exact h (stringDataExt _ _ hd)
    | cons q Q2 =>
      intro hc
      rw [List.nil_append, List.nil_append,
        pyRepr_tuple_two _ (by simp), pyRepr_tuple_two _ (by simp)] at hc
      have hd := congrArg String.data hc
      simp only [String.data_append] at hd
      simp at hd
      exact pyReprJoin_ne_middle [] a b (q :: Q2) h (stringDataExt _ _ hd)
  | cons p P2 =>
    intro hc
    rw [pyRepr_tuple_two _ (by simp; omega), pyRepr_tuple_two _ (by simp; omega)] at hc
    have hd := congrArg String.data hc
    simp only [String.data_append] at hd
    simp at hd
    exact pyReprJoin_ne_middle (p :: P2) a b Q h (stringDataExt _ _ hd)

/-- Exchanging one positional argument for one whose normal form
prints differently changes the canonical key serialization. -/
theorem canonical_ne_of_middle (pre post : List PyVal)
    (kw : List (String × PyVal)) (a b : PyVal)
    (h : pyRepr (sortDicts a) ≠ pyRepr (sortDicts b)) :
    canonicalKeyString (pre ++ a :: post) kw ≠
      canonicalKeyString (pre ++ b :: post) kw := by
  intro hc
  unfold canonicalKeyString at hc
  have hd := congrArg String.data hc
  simp only [String.data_append] at hd
  have hT := stringDataExt _ _
    (List.append_cancel_right (List.append_cancel_right hd))
  unfold sortedDictsArgs at hT
  rw [sortDictsList_eq_map, sortDictsList_eq_map, List.map_append, List.map_append,
    List.map_cons, List.map_cons] at hT
  exact pyRepr_tuple_middle_ne _ _ _ _ h hT

/-- C9: normalisation maps list/tuple nodes elementwise, preserving
positions (sequences are never reordered), and two calls whose
argument tuples differ only in the contents order of one list (or
tuple) of safe atoms produce different canonical serializations —
`hash_key` being exactly the SHA-256 hex digest of that canonical
serialization. -/
theorem claim9_positional_sensitivity :
    (∀ xs, sortDicts (.list xs) = .list (xs.map sortDicts) ∧
      sortDicts (.tuple xs) = .tuple (xs.map sortDicts)) ∧
    (∀ (pre post : List PyVal) (kw : List (String × PyVal)) (xs ys : List PyVal),
      (∀ x ∈ xs, safeAtom x = true) → (∀ y ∈ ys, safeAtom y = true) →
      xs.length = ys.length → xs ≠ ys →
      canonicalKeyString (pre ++ .list xs :: post) kw ≠
        canonicalKeyString (pre ++ .list ys :: post) kw ∧
      canonicalKeyString (pre ++ .tuple xs :: post) kw ≠
        canonicalKeyString (pre ++ .tuple ys :: post) kw) ∧
    (∀ args kw, hash_key args kw = sha256hex (canonicalKeyString args kw)) ∧
    hash_key [.list [.int 1, .int 2]] [] ≠ hash_key [.list [.int 2, .int 1]] [] := by
  refine ⟨?_, ?_, fun _ _ => rfl, ?_⟩
  · intro xs
    constructor <;> simp [sortDicts, sortDictsList_eq_map]
  · intro pre post kw xs ys hxs hys hlen hne
    have hmx : xs.map sortDicts = xs := map_sortDicts_safe xs hxs
    have hmy : ys.map sortDicts = ys := map_sortDicts_safe ys hys
    constructor
    · apply canonical_ne_of_middle
      show pyRepr (sortDicts (.list xs)) ≠ pyRepr (sortDicts (.list ys))
      have e1 : sortDicts (.list xs) = .list xs := by
        simp [sortDicts, sortDictsList_eq_map, hmx]
      have e2 : sortDicts (.list ys) = .list ys := by
        simp [sortDicts, sortDictsList_eq_map, hmy]
      rw [e1, e2]
      exact pyRepr_list_ne xs ys hxs hys hne
    · apply canonical_ne_of_middle
      show pyRepr (sortDicts (.tuple xs)) ≠ pyRepr (sortDicts (.tuple ys))
      have e1 : sortDicts (.tuple xs) = .tuple xs := by
        simp [sortDicts, sortDictsList_eq_map, hmx]
      have e2 : sortDicts (.tuple ys) = .tuple ys := by
        simp [sortDicts, sortDictsList_eq_map, hmy]
      rw [e1, e2]
      exact pyRepr_tuple_ne xs ys hxs hys hlen hne
  · simp only [hash_key, canonicalKeyString, sortedDictsArgs, sortedDictsKw, kwReprBody]
    simp [sortDictsList, sortDicts, pyRepr, pyReprJoin, intDecimal, natDecimal, digitChar10]
    decide

/-- C9 witness: the concrete calls `f([1, 2])` and `f([2, 1])` receive
different canonical key serializations. -/
theorem claim9_witness :
    canonicalKeyString ([] ++ .list [.int 1, .int 2] :: []) [] ≠
      canonicalKeyString ([] ++ .list [.int 2, .int 1] :: []) [] := by
  exact (claim9_positional_sensitivity.2.1 [] [] [] [.int 1, .int 2] [.int 2, .int 1]
    (by decide) (by decide) rfl (by simp)).1
